import Mathlib

/-!
# Verification of the Apriori implementation

A shallow embedding of `src/lib.rs` (Apriori-in-Rust).  Pure list/number
functions mirror the Rust functions under their source names.  Floating
point thresholds (`min_sup`, `min_conf`) are modelled by rationals, and
`(n as f64 * min_sup) as usize` by `(⌊n * min_sup⌋).toNat`.  The Rust
`HashMap` used for the degree-1 tally has an unspecified iteration order;
it is modelled by an explicit association list `enum` together with the
hypothesis that `enum` is a permutation of the insertion-ordered tally.
Partial operations that can panic in Rust (`unwrap`, indexing) are
modelled with `Option`; safety claims show the `none` branches are
unreachable in the pipeline.
-/

/-- `Txn` (src/lib.rs): a transaction id together with its item list. -/
structure Txn where
  id : Nat
  items : List String
deriving DecidableEq

/-- `CandicateSet` (src/lib.rs): a candidate itemset. -/
structure CandicateSet where
  degree : Nat
  items : List String
  count : Nat
deriving DecidableEq

/-- `FrequentSet` (src/lib.rs): a promoted (frequent) itemset. -/
structure FrequentSet where
  degree : Nat
  items : List String
  count : Nat
deriving DecidableEq

/-- `AssociationRule` (src/lib.rs): `from -> to` with support and confidence. -/
structure AssociationRule where
  from_ : List String
  to_ : List String
  sup : ℚ
  conf : ℚ
deriving DecidableEq

/-- Code-point-wise lexicographic comparison of character lists.  `Vec::sort`
on Rust `String`s sorts byte-lexicographically, which on UTF-8 agrees with
code-point order; `charListLe_iff_le` below proves this comparator equal to
the standard order `≤` on `String`. -/
def charListLe : List Char → List Char → Bool
  | [], _ => true
  | _ :: _, [] => false
  | a :: as, b :: bs => if a < b then true else if a = b then charListLe as bs else false

/-- `create_sorted_txn_set` (src/lib.rs), with the csv reader abstracted to the
list of raw records: blanks are dropped and each record is sorted
lexicographically (`items_vec.sort()`); the `id` is the record's ordinal
position.  (Note: no deduplication is performed.) -/
def create_sorted_txn_set (records : List (List String)) : List Txn :=
  records.enum.map (fun p =>
    { id := p.1, items := List.insertionSort (fun a b => charListLe a.data b.data = true)
        (p.2.filter (fun x => !x.isEmpty)) })

/-- One `entry(item).and_modify(+= 1).or_insert(1)` step of
`create_candicate_set_1`, on an insertion-ordered association list. -/
def bump : List (String × Nat) → String → List (String × Nat)
  | [], item => [(item, 1)]
  | (k, v) :: rest, item => if k = item then (k, v + 1) :: rest else (k, v) :: bump rest item

/-- `create_candicate_set_1` (src/lib.rs): tally of every item occurrence over
all transactions, as an insertion-ordered association list (the contents of the
Rust `HashMap`; its iteration order is modelled separately by a permutation). -/
def create_candicate_set_1 (txn_set : List Txn) : List (String × Nat) :=
  txn_set.foldl (fun m t => t.items.foldl bump m) []

/-- `create_frequent_set_1` (src/lib.rs): keep the entries whose count is
strictly greater than `min_count`. -/
def create_frequent_set_1 (candicate_set_1 : List (String × Nat)) (min_count : Nat) :
    List (String × Nat) :=
  candicate_set_1.filter (fun x => decide (min_count < x.2))

/-- Body of `init_fre_set` (src/lib.rs): wrap each surviving degree-1 entry as a
`FrequentSet`.  The argument is the (already filtered) `frequent_set_1` in the
iteration order of the Rust `HashMap`. -/
def init_fre_set (frequent_set_1 : List (String × Nat)) : List FrequentSet :=
  frequent_set_1.map (fun s => { degree := 1, items := [s.1], count := s.2 })

/-- `subset_of` (src/lib.rs): every item of `subset` occurs in `set`. -/
def subset_of (subset : List String) (set : List String) : Bool :=
  subset.all (fun item => set.contains item)

/-- Number of transactions containing `items` as a subset (the value the
support-counting loop of `generate_all_fre_sets` computes for a candidate). -/
def suppCount (items : List String) (txn_set : List Txn) : Nat :=
  (txn_set.filter (fun t => subset_of items t.items)).length

/-- The inner counting loop of `generate_all_fre_sets`: fold over all
transactions, incrementing for each transaction containing `items`. -/
def count_txns (items : List String) (start : Nat) (txn_set : List Txn) : Nat :=
  txn_set.foldl (fun n t => if subset_of items t.items then n + 1 else n) start

/-- `get_degree_fre_sets` (src/lib.rs): the frequent sets of a given degree. -/
def get_degree_fre_sets (fre_sets : List FrequentSet) (degree : Nat) : List FrequentSet :=
  fre_sets.filter (fun x => decide (x.degree = degree))

/-- `len_of_f_degree` (src/lib.rs): how many frequent sets have this degree. -/
def len_of_f_degree (fre_sets : List FrequentSet) (degree : Nat) : Nat :=
  (fre_sets.filter (fun x => decide (x.degree = degree))).length

/-- The join test inside `get_candi_from_f` (src/lib.rs) for one pair `(fi, fj)`:
if the first `degree - 1` items agree and the `degree`-th items differ, produce
the candidate `fi.items ++ [last item of fj]` with count 0. -/
def joinOne (degree : Nat) (fi fj : FrequentSet) : Option CandicateSet :=
  if fi.items.take (degree - 1) = fj.items.take (degree - 1) then
    if fi.items.getD (degree - 1) "" ≠ fj.items.getD (degree - 1) "" then
      some { degree := degree + 1, items := fi.items ++ [fj.items.getD (degree - 1) ""], count := 0 }
    else none
  else none

/-- The double loop of `get_candi_from_f` (src/lib.rs): `for i in 0..len-1`,
`for j in i+1..len`, written as structural recursion (each element is paired
with every later element, in order). -/
def pairJoin (degree : Nat) : List FrequentSet → List CandicateSet
  | [] => []
  | f :: rest => rest.filterMap (fun g => joinOne degree f g) ++ pairJoin degree rest

/-- `get_candi_from_f` (src/lib.rs). -/
def get_candi_from_f (fre_sets : List FrequentSet) (degree : Nat) : List CandicateSet :=
  pairJoin degree (get_degree_fre_sets fre_sets degree)

/-- The promotion pass of one `while` iteration of `generate_all_fre_sets`
(src/lib.rs): count each candidate over all transactions and keep those with
`count >= min_count` as `FrequentSet`s. -/
def promote (candi_sets : List CandicateSet) (txn_set : List Txn) (min_count : Nat) :
    List FrequentSet :=
  candi_sets.filterMap (fun c =>
    if min_count ≤ count_txns c.items c.count txn_set then
      some { degree := c.degree, items := c.items, count := count_txns c.items c.count txn_set }
    else none)

/-- One iteration of the `while len_of_f > 0` loop of `generate_all_fre_sets`
(src/lib.rs) on the state (collection, current degree); when the guard fails the
state is returned unchanged (the Rust loop exits). -/
def levelStep (txn_set : List Txn) (min_count : Nat) (st : List FrequentSet × Nat) :
    List FrequentSet × Nat :=
  if 0 < len_of_f_degree st.1 st.2 then
    (st.1 ++ promote (get_candi_from_f st.1 st.2) txn_set min_count, st.2 + 1)
  else st

/-- The state of `generate_all_fre_sets` after `k` loop iterations, starting
from the degree-1 seed at degree 1. -/
def genStates (seed : List FrequentSet) (txn_set : List Txn) (min_count : Nat) (k : Nat) :
    List FrequentSet × Nat :=
  (levelStep txn_set min_count)^[k] (seed, 1)

/-- `generate_all_fre_sets` (src/lib.rs): run the level loop to completion.
`seed.length + 1` iterations always suffice (proved below: the loop state is a
fixed point from then on), so this is the loop's terminal collection. -/
def generate_all_fre_sets (seed : List FrequentSet) (txn_set : List Txn) (min_count : Nat) :
    List FrequentSet :=
  (genStates seed txn_set min_count (seed.length + 1)).1

/-- The bit-scanning `while i != 0` loop of `generate_association_rules`
(src/lib.rs): collect `items[pos]` for each set bit of `i`, scanning from the
low bit; `none` models the panic of an out-of-bounds index. -/
def fromLoop (items : List String) (i : Nat) (pos : Nat) : Option (List String) :=
  if _h : i = 0 then some []
  else if i % 2 = 1 then
    match items.get? pos with
    | none => none
    | some x => (fromLoop items (i / 2) (pos + 1)).map (fun l => x :: l)
  else fromLoop items (i / 2) (pos + 1)
termination_by i
decreasing_by
  all_goals exact Nat.div_lt_self (Nat.pos_of_ne_zero _h) one_lt_two

/-- The per-mask body of `generate_association_rules` (src/lib.rs), iterated
over the list of masks; `none` models the `unwrap` panic when the antecedent is
not found in the collection. -/
def maskRules (fre_sets : List FrequentSet) (min_conf : ℚ) (txn_num : Nat)
    (fre_set : FrequentSet) : List Nat → Option (List AssociationRule)
  | [] => some []
  | i :: rest => do
    let from_ ← fromLoop fre_set.items i 0
    let to_ := fre_set.items.filter (fun x => decide (x ∉ from_))
    let from_fre_set ← fre_sets.find? (fun x => decide (x.items = from_))
    let conf : ℚ := (fre_set.count : ℚ) / (from_fre_set.count : ℚ)
    let now := if min_conf ≤ conf then
        [{ from_ := from_, to_ := to_, sup := (fre_set.count : ℚ) / (txn_num : ℚ), conf := conf }]
      else []
    let more ← maskRules fre_sets min_conf txn_num fre_set rest
    pure (now ++ more)

/-- The outer loop of `generate_association_rules` (src/lib.rs) over the
frequent sets: degree-1 sets are skipped, all masks `1 .. 2^degree - 2`
are processed for the others. -/
def rulesLoop (fre_sets : List FrequentSet) (min_conf : ℚ) (txn_num : Nat) :
    List FrequentSet → Option (List AssociationRule)
  | [] => some []
  | fre_set :: rest =>
    if fre_set.degree = 1 then rulesLoop fre_sets min_conf txn_num rest
    else do
      let rs ← maskRules fre_sets min_conf txn_num fre_set
        (List.range' 1 (2 ^ fre_set.degree - 1 - 1))
      let more ← rulesLoop fre_sets min_conf txn_num rest
      pure (rs ++ more)

/-- `generate_association_rules` (src/lib.rs). -/
def generate_association_rules (fre_sets : List FrequentSet) (min_conf : ℚ) (txn_num : Nat) :
    Option (List AssociationRule) :=
  rulesLoop fre_sets min_conf txn_num fre_sets

/-- `min_count` as computed in `apriori`/`init_fre_set` (src/lib.rs):
`(txn_set.len() as f64 * min_sup) as usize`, i.e. the floor, clamped at 0. -/
def min_count_of (txn_set : List Txn) (min_sup : ℚ) : Nat :=
  (⌊(txn_set.length : ℚ) * min_sup⌋).toNat

/-- The frequent-set half of `apriori` (src/lib.rs): seed with the filtered
degree-1 tally (`enum` is the tally in hash-map iteration order) and run the
level loop. -/
def pipelineFreSets (enum : List (String × Nat)) (txn_set : List Txn) (min_count : Nat) :
    List FrequentSet :=
  generate_all_fre_sets (init_fre_set (create_frequent_set_1 enum min_count)) txn_set min_count

/-- The item universe of a run: the degree-1 frequent items, in seed order. -/
def seed_items (enum : List (String × Nat)) (min_count : Nat) : List String :=
  (create_frequent_set_1 enum min_count).map Prod.fst

/-- `pipelineFreSets` with ingestion and the `min_count` computation inlined:
the full frequent-itemset side of a run of `apriori` (src/lib.rs). -/
def pipelineOf (enum : List (String × Nat)) (records : List (List String)) (min_sup : ℚ) :
    List FrequentSet :=
  pipelineFreSets enum (create_sorted_txn_set records)
    (min_count_of (create_sorted_txn_set records) min_sup)

/-- `apriori` (src/lib.rs): the full model of one run, returning the frequent
sets and the association rules (`none` = a panic was reached). -/
def aprioriModel (enum : List (String × Nat)) (records : List (List String))
    (min_sup min_conf : ℚ) : List FrequentSet × Option (List AssociationRule) :=
  let fre_sets := pipelineOf enum records min_sup
  (fre_sets, generate_association_rules fre_sets min_conf (create_sorted_txn_set records).length)

/-- Total tally of an item over all transactions (counting duplicate
occurrences inside one transaction separately, as the Rust tally does). -/
def tally (x : String) (txn_set : List Txn) : Nat :=
  (txn_set.map (fun t => t.items.count x)).sum

/-- Lookup in an association list (0 when absent). -/
def lookupCount : List (String × Nat) → String → Nat
  | [], _ => 0
  | (k, v) :: rest, x => if k = x then v else lookupCount rest x

/-- Spec-side subset selection (spec §4.5): bit `i` of the mask, scanned from
the low bit, selects the `i`-th item. -/
def specSelect : Nat → List String → List String
  | _, [] => []
  | i, x :: xs => if i % 2 = 1 then x :: specSelect (i / 2) xs else specSelect (i / 2) xs

/-- Spec-side complement of `specSelect`: the unselected items, in order. -/
def specCompl : Nat → List String → List String
  | _, [] => []
  | i, x :: xs => if i % 2 = 1 then specCompl (i / 2) xs else x :: specCompl (i / 2) xs

/-- Spec-side rule for one frequent set and one mask (spec §4.5): antecedent is
the mask-selected items, consequent the remaining items, confidence the count
ratio against the looked-up antecedent itemset; emitted iff `conf ≥ min_conf`. -/
def specRuleOfMask (fre_sets : List FrequentSet) (min_conf : ℚ) (txn_num : Nat)
    (F : FrequentSet) (m : Nat) : Option AssociationRule :=
  match fre_sets.find? (fun x => decide (x.items = specSelect m F.items)) with
  | none => none
  | some fa =>
    let conf : ℚ := (F.count : ℚ) / (fa.count : ℚ)
    if min_conf ≤ conf then
      some { from_ := specSelect m F.items, to_ := specCompl m F.items,
             sup := (F.count : ℚ) / (txn_num : ℚ), conf := conf }
    else none

/-- Spec-side rule generator (spec §4.5): for every frequent set of degree ≥ 2
and every mask `1 .. 2^degree - 2`, the rule of `specRuleOfMask` if emitted. -/
def specRules (fre_sets : List FrequentSet) (min_conf : ℚ) (txn_num : Nat) :
    List AssociationRule :=
  (fre_sets.filter (fun F => decide (2 ≤ F.degree))).flatMap (fun F =>
    (List.range' 1 (2 ^ F.degree - 2)).filterMap (specRuleOfMask fre_sets min_conf txn_num F))

/-- Spec-side candidate generation (spec §4.2 / claim C5), written with
explicit index pairs `(i, j)`, `i < j`, exactly as the Rust double loop is
described. -/
def candSpec (fre_sets : List FrequentSet) (degree : Nat) : List CandicateSet :=
  (List.range (get_degree_fre_sets fre_sets degree).length).flatMap (fun i =>
    (List.range' (i + 1) ((get_degree_fre_sets fre_sets degree).length - (i + 1))).filterMap
      (fun j =>
        joinOne degree
          ((get_degree_fre_sets fre_sets degree).getD i { degree := 0, items := [], count := 0 })
          ((get_degree_fre_sets fre_sets degree).getD j { degree := 0, items := [], count := 0 })))

/-- `a` occurs strictly before `b` in the item universe `U`. -/
def idxLt (U : List String) (a b : String) : Prop :=
  U.indexOf a < U.indexOf b

/-- Strict lexicographic order on item sequences induced by the universe `U`. -/
def seqLt (U : List String) : List String → List String → Prop
  | _, [] => False
  | [], _ :: _ => True
  | a :: as, b :: bs => idxLt U a b ∨ (a = b ∧ seqLt U as bs)

/-! ### Support counting -/

theorem subset_of_iff {S t : List String} : subset_of S t = true ↔ ∀ x ∈ S, x ∈ t := by
  simp [subset_of, List.all_eq_true, List.elem_iff]

theorem count_txns_eq (S : List String) (c : Nat) (ts : List Txn) :
    count_txns S c ts = c + suppCount S ts := by
  induction ts generalizing c with
  | nil => simp [count_txns, suppCount]
  | cons t ts ih =>
    by_cases h : subset_of S t.items
    · simp only [count_txns, List.foldl_cons, h, if_pos, suppCount, List.filter_cons] at *
      rw [ih]
      simp [suppCount, h]
      omega
    · simp only [count_txns, List.foldl_cons, h, if_neg, suppCount, List.filter_cons] at *
      rw [ih]
      simp [suppCount, h]

theorem suppCount_mono {S1 S2 : List String} (h : ∀ x ∈ S1, x ∈ S2) (ts : List Txn) :
    suppCount S2 ts ≤ suppCount S1 ts := by
  induction ts with
  | nil => simp [suppCount]
  | cons t ts ih =>
    simp only [suppCount, List.filter_cons] at *
    by_cases h2 : subset_of S2 t.items
    · have h1 : subset_of S1 t.items = true := by
        rw [subset_of_iff] at h2 ⊢
        exact fun x hx => h2 x (h x hx)
      simp [h1, h2]
      omega
    · by_cases h1 : subset_of S1 t.items <;> simp [h1, h2] <;> omega

theorem suppCount_singleton_le_tally (x : String) (ts : List Txn) :
    suppCount [x] ts ≤ tally x ts := by
  induction ts with
  | nil => simp [suppCount, tally]
  | cons t ts ih =>
    simp only [suppCount, tally, List.filter_cons, List.map_cons, List.sum_cons] at *
    by_cases h : subset_of [x] t.items
    · have hx : x ∈ t.items := by
        rw [subset_of_iff] at h
        exact h x (by simp)
      have : 0 < t.items.count x := List.count_pos_iff.mpr hx
      simp [h]
      omega
    · simp [h]
      omega

/-! ### The degree-1 tally (`create_candicate_set_1`) -/

theorem lookupCount_bump (m : List (String × Nat)) (y x : String) :
    lookupCount (bump m y) x = lookupCount m x + if x = y then 1 else 0 := by
  induction m with
  | nil =>
    by_cases h : x = y
    · subst h; simp [bump, lookupCount]
    · simp [bump, lookupCount, h, Ne.symm h]
  | cons e rest ih =>
    obtain ⟨k, v⟩ := e
    by_cases hk : k = y
    · subst hk
      by_cases hx : k = x
      · subst hx; simp [bump, lookupCount]
      · simp [bump, lookupCount, hx, Ne.symm hx]
    · by_cases hx : k = x
      · subst hx
        simp [bump, lookupCount, hk]
      · simp [bump, lookupCount, hk, hx, ih]

theorem keys_bump (m : List (String × Nat)) (y : String) :
    (bump m y).map Prod.fst =
      if y ∈ m.map Prod.fst then m.map Prod.fst else m.map Prod.fst ++ [y] := by
  induction m with
  | nil => simp [bump]
  | cons e rest ih =>
    obtain ⟨k, v⟩ := e
    by_cases hk : k = y
    · subst hk; simp [bump]
    · have hne : ¬ y = k := fun h => hk h.symm
      by_cases hy : y ∈ rest.map Prod.fst <;>
        simp [bump, hk, hy, ih, List.mem_cons, hne]

theorem mem_keys_bump {m : List (String × Nat)} {y x : String} :
    x ∈ (bump m y).map Prod.fst ↔ x ∈ m.map Prod.fst ∨ x = y := by
  rw [keys_bump]
  by_cases hy : y ∈ m.map Prod.fst
  · simp only [hy, if_pos]
    constructor
    · exact Or.inl
    · rintro (h | rfl)
      · exact h
      · exact hy
  · simp [hy]

theorem nodup_keys_bump {m : List (String × Nat)} (y : String)
    (h : (m.map Prod.fst).Nodup) : ((bump m y).map Prod.fst).Nodup := by
  rw [keys_bump]
  by_cases hy : y ∈ m.map Prod.fst
  · simpa [hy]
  · simp only [hy, if_neg, not_false_iff]
    exact List.Nodup.append h (List.nodup_singleton y)
      (fun a ha hb => by simp at hb; subst hb; exact hy ha)

theorem lookupCount_foldl_bump (items : List String) (m : List (String × Nat)) (x : String) :
    lookupCount (items.foldl bump m) x = lookupCount m x + items.count x := by
  induction items generalizing m with
  | nil => simp
  | cons y items ih =>
    simp only [List.foldl_cons, ih, lookupCount_bump, List.count_cons]
    have : ((y == x) = true) ↔ x = y := by
      constructor
      · intro h; exact (beq_iff_eq.mp h).symm
      · intro h; exact beq_iff_eq.mpr h.symm
    by_cases h : x = y <;> simp [h, this]
    omega

theorem nodup_keys_foldl_bump (items : List String) (m : List (String × Nat))
    (h : (m.map Prod.fst).Nodup) : ((items.foldl bump m).map Prod.fst).Nodup := by
  induction items generalizing m with
  | nil => exact h
  | cons y items ih => exact ih _ (nodup_keys_bump y h)

theorem mem_keys_foldl_bump {items : List String} {m : List (String × Nat)} {x : String} :
    x ∈ (items.foldl bump m).map Prod.fst ↔ x ∈ m.map Prod.fst ∨ x ∈ items := by
  induction items generalizing m with
  | nil => simp
  | cons y items ih =>
    simp only [List.foldl_cons, ih, mem_keys_bump, List.mem_cons]
    tauto

theorem lookupCount_create (ts : List Txn) (x : String) :
    lookupCount (create_candicate_set_1 ts) x = tally x ts := by
  suffices h : ∀ m, lookupCount (ts.foldl (fun m t => t.items.foldl bump m) m) x =
      lookupCount m x + tally x ts by
    simpa [create_candicate_set_1, lookupCount] using h []
  induction ts with
  | nil => intro m; simp [tally]
  | cons t ts ih =>
    intro m
    simp only [List.foldl_cons, ih, lookupCount_foldl_bump, tally, List.map_cons, List.sum_cons]
    omega

theorem nodup_keys_create (ts : List Txn) :
    ((create_candicate_set_1 ts).map Prod.fst).Nodup := by
  suffices h : ∀ m, ((m : List (String × Nat)).map Prod.fst).Nodup →
      ((ts.foldl (fun m t => t.items.foldl bump m) m).map Prod.fst).Nodup by
    exact h [] (by simp)
  induction ts with
  | nil => exact fun m hm => hm
  | cons t ts ih => exact fun m hm => ih _ (nodup_keys_foldl_bump _ _ hm)

theorem mem_keys_create {ts : List Txn} {x : String} :
    x ∈ (create_candicate_set_1 ts).map Prod.fst ↔ ∃ t ∈ ts, x ∈ t.items := by
  suffices h : ∀ m : List (String × Nat),
      x ∈ ((ts.foldl (fun (m : List (String × Nat)) (t : Txn) => t.items.foldl bump m) m).map
        Prod.fst) ↔ x ∈ m.map Prod.fst ∨ ∃ t ∈ ts, x ∈ t.items by
    simpa [create_candicate_set_1] using h []
  induction ts with
  | nil => intro m; simp
  | cons t ts ih =>
    intro m
    simp only [List.foldl_cons, ih, mem_keys_foldl_bump, List.mem_cons]
    constructor
    · rintro ((h | h) | ⟨u, hu, hx⟩)
      · exact Or.inl h
      · exact Or.inr ⟨t, Or.inl rfl, h⟩
      · exact Or.inr ⟨u, Or.inr hu, hx⟩
    · rintro (h | ⟨u, (rfl | hu), hx⟩)
      · exact Or.inl (Or.inl h)
      · exact Or.inl (Or.inr hx)
      · exact Or.inr ⟨u, hu, hx⟩

theorem tally_pos_iff {x : String} {ts : List Txn} :
    0 < tally x ts ↔ ∃ t ∈ ts, x ∈ t.items := by
  induction ts with
  | nil => simp [tally]
  | cons t ts ih =>
    simp only [tally, List.map_cons, List.sum_cons]
    have hsum : 0 < t.items.count x + (ts.map (fun t => t.items.count x)).sum ↔
        0 < t.items.count x ∨ 0 < (ts.map (fun t => t.items.count x)).sum := by omega
    rw [hsum, List.count_pos_iff,
      show (ts.map (fun t => t.items.count x)).sum = tally x ts from rfl, ih]
    constructor
    · rintro (h | ⟨u, hu, hx⟩)
      · exact ⟨t, List.mem_cons_self t ts, h⟩
      · exact ⟨u, List.mem_cons_of_mem t hu, hx⟩
    · rintro ⟨u, hu, hx⟩
      rcases List.mem_cons.mp hu with rfl | hu
      · exact Or.inl hx
      · exact Or.inr ⟨u, hu, hx⟩

theorem mem_iff_lookup {m : List (String × Nat)} (hm : (m.map Prod.fst).Nodup)
    {x : String} {c : Nat} :
    (x, c) ∈ m ↔ x ∈ m.map Prod.fst ∧ c = lookupCount m x := by
  induction m with
  | nil => simp
  | cons e rest ih =>
    obtain ⟨k, v⟩ := e
    simp only [List.map_cons, List.nodup_cons] at hm
    by_cases hk : k = x
    · subst hk
      simp only [List.mem_cons, lookupCount, if_pos rfl, List.map_cons]
      constructor
      · rintro (h | h)
        · simp at h
          simp [h]
        · exfalso
          exact hm.1 (by simpa using List.mem_map_of_mem Prod.fst h)
      · rintro ⟨-, rfl⟩
        exact Or.inl rfl
    · simp only [List.mem_cons, lookupCount, if_neg hk, List.map_cons, ih hm.2]
      constructor
      · rintro (h | ⟨h1, h2⟩)
        · exfalso; apply hk; injection h with h1 h2; exact h1.symm
        · exact ⟨Or.inr h1, h2⟩
      · rintro ⟨(h | h), h2⟩
        · exact absurd h.symm hk
        · exact Or.inr ⟨h, h2⟩

/-! ### The induced item order -/

theorem seqLt_irrefl (U : List String) : ∀ l, ¬ seqLt U l l := by
  intro l
  induction l with
  | nil => simp [seqLt]
  | cons a l ih =>
    intro h
    rcases h with h | ⟨-, h⟩
    · exact lt_irrefl _ h
    · exact ih h

theorem seqLt_asymm (U : List String) :
    ∀ {l1 l2 : List String}, seqLt U l1 l2 → seqLt U l2 l1 → False := by
  intro l1
  induction l1 with
  | nil =>
    intro l2 h1 h2
    cases l2 with
    | nil => exact h1
    | cons b bs => exact h2
  | cons a as ih =>
    intro l2 h1 h2
    cases l2 with
    | nil => exact h1
    | cons b bs =>
      rcases h1 with h1 | ⟨rfl, h1⟩
      · rcases h2 with h2 | ⟨rfl, h2⟩
        · exact lt_asymm h1 h2
        · exact lt_irrefl _ h1
      · rcases h2 with h2 | ⟨-, h2⟩
        · exact lt_irrefl _ h2
        · exact ih h1 h2

theorem seqLt_append_iff (U : List String) (P : List String) (a b : String) :
    seqLt U (P ++ [a]) (P ++ [b]) ↔ idxLt U a b := by
  induction P with
  | nil =>
    constructor
    · rintro (h | ⟨rfl, h⟩)
      · exact h
      · exact absurd h (seqLt_irrefl U [])
    · exact fun h => Or.inl h
  | cons p P ih =>
    constructor
    · rintro (h | ⟨-, h⟩)
      · exact absurd h (lt_irrefl _)
      · exact ih.mp h
    · exact fun h => Or.inr ⟨rfl, ih.mpr h⟩

theorem seqLt_append_of_seqLt (U : List String) :
    ∀ {A B : List String}, A.length = B.length → seqLt U A B →
      ∀ (a b : String), seqLt U (A ++ [a]) (B ++ [b]) := by
  intro A
  induction A with
  | nil =>
    intro B hlen h
    cases B with
    | nil => exact absurd h (seqLt_irrefl U [])
    | cons y ys => simp at hlen
  | cons x xs ih =>
    intro B hlen h a b
    cases B with
    | nil => exact absurd h (by simp [seqLt])
    | cons y ys =>
      rcases h with h | ⟨rfl, h⟩
      · exact Or.inl h
      · exact Or.inr ⟨rfl, ih (by simpa using hlen) h a b⟩

theorem seqLt_singleton (U : List String) (x y : String) :
    seqLt U [x] [y] ↔ idxLt U x y :=
  seqLt_append_iff U [] x y

theorem nodup_of_pairwise_idxLt {U : List String} {l : List String}
    (h : l.Pairwise (idxLt U)) : l.Nodup :=
  h.imp (fun hab => by
    rintro rfl
    exact lt_irrefl _ hab)

theorem pairwise_idxLt_self {U : List String} (h : U.Nodup) : U.Pairwise (idxLt U) := by
  induction U with
  | nil => exact List.Pairwise.nil
  | cons x xs ih =>
    rcases List.nodup_cons.mp h with ⟨hx, hxs⟩
    refine List.Pairwise.cons ?_ ?_
    · intro b hb
      have hbx : x ≠ b := fun hbx => hx (hbx ▸ hb)
      simp [idxLt, List.indexOf_cons_self, List.indexOf_cons_ne _ hbx]
    · refine (ih hxs).imp_of_mem ?_
      intro a b ha hb hab
      have hax : x ≠ a := fun h2 => hx (h2 ▸ ha)
      have hbx : x ≠ b := fun h2 => hx (h2 ▸ hb)
      simpa [idxLt, List.indexOf_cons_ne _ hax, List.indexOf_cons_ne _ hbx,
        Nat.succ_lt_succ_iff] using hab

/-! ### Generic list helpers -/

theorem filterMap_getD_range {α β : Type} (f : α → Option β) (l : List α) (d : α) :
    (List.range l.length).filterMap (fun i => f (l.getD i d)) = l.filterMap f := by
  induction l with
  | nil => simp
  | cons x xs ih =>
    rw [List.length_cons, List.range_succ_eq_map]
    simp only [List.filterMap_cons, List.filterMap_map]
    have : (fun i => f ((x :: xs).getD i d)) ∘ Nat.succ = fun i => f (xs.getD i d) := by
      funext i
      simp [List.getD]
    rw [show ((x :: xs).getD 0 d) = x from rfl, this, ih]

theorem sublist_pair_of_getElem {α : Type} (l : List α) (d : α) :
    ∀ i j, i < j → ∀ (hj : j < l.length), [l.getD i d, l.getD j d].Sublist l := by
  induction l with
  | nil => intro i j _hij hj; simp at hj
  | cons x xs ih =>
    intro i j hij hj
    cases i with
    | zero =>
      cases j with
      | zero => omega
      | succ j =>
        have hjx : j < xs.length := by simpa using hj
        have hmem : xs.getD j d ∈ xs := by
          rw [List.getD_eq_getElem xs d hjx]
          exact List.getElem_mem hjx
        simpa [List.getD] using List.Sublist.cons₂ x (List.singleton_sublist.mpr hmem)
    | succ i =>
      cases j with
      | zero => omega
      | succ j =>
        have : [xs.getD i d, xs.getD j d].Sublist xs :=
          ih i j (by omega) (by simpa using hj)
        simpa [List.getD] using List.Sublist.cons x this

theorem take_getD_decomp {α : Type} (l : List α) (d : α) (n : Nat) (h : l.length = n + 1) :
    l = l.take n ++ [l.getD n d] := by
  have h1 : l = l.take (n + 1) := by
    rw [List.take_of_length_le (by omega)]
  have h2 : l.take (n + 1) = l.take n ++ (l[n]?).toList := List.take_succ
  have h3 : l[n]? = some (l.getD n d) := by
    rw [List.getD_eq_getElem l d (by omega)]
    exact List.getElem?_eq_getElem (by omega)
  rw [h3] at h2
  simpa using h1.trans h2

/-! ### Candidate generation: membership and order -/

theorem mem_pairJoin {d : Nat} {l : List FrequentSet} {c : CandicateSet} :
    c ∈ pairJoin d l ↔ ∃ A B, [A, B].Sublist l ∧ joinOne d A B = some c := by
  induction l with
  | nil => simp [pairJoin]
  | cons f rest ih =>
    simp only [pairJoin, List.mem_append, List.mem_filterMap, ih]
    constructor
    · rintro (⟨g, hg, hj⟩ | ⟨A, B, hs, hj⟩)
      · exact ⟨f, g, List.Sublist.cons₂ f (List.singleton_sublist.mpr hg), hj⟩
      · exact ⟨A, B, List.Sublist.cons f hs, hj⟩
    · rintro ⟨A, B, hs, hj⟩
      rcases List.sublist_cons_iff.mp hs with hs | ⟨r, heq, hr⟩
      · exact Or.inr ⟨A, B, hs, hj⟩
      · injection heq with h1 h2
        subst h1
        exact Or.inl ⟨B, List.singleton_sublist.mp (h2 ▸ hr), hj⟩

theorem joinOne_some {d : Nat} {A B : FrequentSet} {c : CandicateSet} :
    joinOne d A B = some c ↔
      A.items.take (d - 1) = B.items.take (d - 1) ∧
      A.items.getD (d - 1) "" ≠ B.items.getD (d - 1) "" ∧
      c = { degree := d + 1, items := A.items ++ [B.items.getD (d - 1) ""], count := 0 } := by
  by_cases h1 : A.items.take (d - 1) = B.items.take (d - 1) <;>
    by_cases h2 : A.items.getD (d - 1) "" = B.items.getD (d - 1) "" <;>
      simp [joinOne, h1, h2, eq_comm]

/-- The shape facts carried by every frequent set of degree `d` in the run:
`d` items, strictly increasing in the seed order, all from the universe. -/
def goodSet (U : List String) (d : Nat) (F : FrequentSet) : Prop :=
  F.items.length = d ∧ F.items.Pairwise (idxLt U) ∧ ∀ x ∈ F.items, x ∈ U

theorem goodSet_decomp {U : List String} {d : Nat} (hd : 1 ≤ d) {F : FrequentSet}
    (h : goodSet U d F) : F.items = F.items.take (d - 1) ++ [F.items.getD (d - 1) ""] :=
  take_getD_decomp F.items "" (d - 1) (by rw [h.1]; omega)

theorem joinOne_good {U : List String} {d : Nat} (hd : 1 ≤ d) {A B : FrequentSet}
    {c : CandicateSet} (hA : goodSet U d A) (hB : goodSet U d B)
    (hAB : seqLt U A.items B.items) (hj : joinOne d A B = some c) :
    c.degree = d + 1 ∧ c.count = 0 ∧
      c.items = A.items ++ [B.items.getD (d - 1) ""] ∧
      c.items.length = d + 1 ∧ c.items.Pairwise (idxLt U) ∧ (∀ x ∈ c.items, x ∈ U) := by
  rcases joinOne_some.mp hj with ⟨hpre, hne, rfl⟩
  set a := A.items.getD (d - 1) "" with ha
  set b := B.items.getD (d - 1) "" with hb
  have hdecA : A.items = A.items.take (d - 1) ++ [a] := goodSet_decomp hd hA
  have hdecB : B.items = A.items.take (d - 1) ++ [b] := by
    rw [hpre]; exact goodSet_decomp hd hB
  have hab : idxLt U a b := by
    rw [hdecA, hdecB] at hAB
    exact (seqLt_append_iff U _ a b).mp hAB
  have hbU : b ∈ U := by
    refine hB.2.2 b ?_
    rw [hb, List.getD_eq_getElem B.items "" (by rw [hB.1]; omega)]
    exact List.getElem_mem _
  have hbmemB : ∀ x ∈ A.items.take (d - 1), idxLt U x b := by
    have hpw := hB.2.1
    rw [hdecB, List.pairwise_append] at hpw
    intro x hx
    simpa using hpw.2.2 x hx b (by simp)
  refine ⟨rfl, rfl, rfl, ?_, ?_, ?_⟩
  · simp [hA.1]
  · rw [List.pairwise_append]
    refine ⟨hA.2.1, by simp, ?_⟩
    intro x hx y hy
    simp only [List.mem_singleton] at hy
    subst hy
    rw [hdecA] at hx
    rcases List.mem_append.mp hx with hx | hx
    · exact hbmemB x hx
    · simp only [List.mem_singleton] at hx
      subst hx
      exact hab
  · intro x hx
    rcases List.mem_append.mp hx with hx | hx
    · exact hA.2.2 x hx
    · simp only [List.mem_singleton] at hx
      subst hx
      exact hbU

theorem pairJoin_pairwise {U : List String} {d : Nat} (hd : 1 ≤ d) {l : List FrequentSet}
    (hgood : ∀ F ∈ l, goodSet U d F)
    (hsort : l.Pairwise (fun A B => seqLt U A.items B.items)) :
    (pairJoin d l).Pairwise (fun c c' => seqLt U c.items c'.items) := by
  induction l with
  | nil => simp [pairJoin]
  | cons f rest ih =>
    have hgf : goodSet U d f := hgood f (List.mem_cons_self f rest)
    rcases List.pairwise_cons.mp hsort with ⟨hfr, hrest⟩
    simp only [pairJoin]
    rw [List.pairwise_append]
    refine ⟨?_, ih (fun F hF => hgood F (List.mem_cons_of_mem f hF)) hrest, ?_⟩
    · rw [List.pairwise_filterMap]
      refine hrest.imp_of_mem ?_
      intro B B' hBm hB'm hlt c hc c' hc'
      simp only [Option.mem_def] at hc hc'
      rcases joinOne_some.mp hc with ⟨hpre, -, rfl⟩
      rcases joinOne_some.mp hc' with ⟨hpre', -, rfl⟩
      have hgB : goodSet U d B := hgood B (List.mem_cons_of_mem f hBm)
      have hgB' : goodSet U d B' := hgood B' (List.mem_cons_of_mem f hB'm)
      have hdecB : B.items = f.items.take (d - 1) ++ [B.items.getD (d - 1) ""] := by
        rw [hpre]; exact goodSet_decomp hd hgB
      have hdecB' : B'.items = f.items.take (d - 1) ++ [B'.items.getD (d - 1) ""] := by
        rw [hpre']; exact goodSet_decomp hd hgB'
      have hbb : idxLt U (B.items.getD (d - 1) "") (B'.items.getD (d - 1) "") := by
        rw [hdecB, hdecB'] at hlt
        exact (seqLt_append_iff U _ _ _).mp hlt
      simpa using (seqLt_append_iff U f.items _ _).mpr hbb
    · intro c hc c' hc'
      simp only [List.mem_filterMap] at hc
      rcases hc with ⟨B, hBm, hj⟩
      rcases mem_pairJoin.mp hc' with ⟨A', B', hs, hj'⟩
      rcases joinOne_some.mp hj with ⟨-, -, rfl⟩
      rcases joinOne_some.mp hj' with ⟨-, -, rfl⟩
      have hA'm : A' ∈ rest := by
        have := hs.subset
        exact this (by simp)
      have hlt : seqLt U f.items A'.items := hfr A' hA'm
      have hlen : f.items.length = A'.items.length := by
        rw [hgf.1, (hgood A' (List.mem_cons_of_mem f hA'm)).1]
      exact seqLt_append_of_seqLt U hlen hlt _ _

theorem pair_sublist_of_seqLt {U : List String} {l : List FrequentSet}
    (hsort : l.Pairwise (fun A B => seqLt U A.items B.items))
    {A B : FrequentSet} (hA : A ∈ l) (hB : B ∈ l)
    (hlt : seqLt U A.items B.items) : [A, B].Sublist l := by
  rcases List.mem_iff_getElem.mp hA with ⟨i, hi, rfl⟩
  rcases List.mem_iff_getElem.mp hB with ⟨j, hj, rfl⟩
  rcases lt_trichotomy i j with hij | rfl | hij
  · have := sublist_pair_of_getElem l l[i] i j hij hj
    rwa [List.getD_eq_getElem l _ hi, List.getD_eq_getElem l _ hj] at this
  · exact absurd hlt (seqLt_irrefl U _)
  · exfalso
    have := (List.pairwise_iff_getElem.mp hsort) j i hj hi hij
    exact seqLt_asymm U hlt this

/-! ### Levels and promotion -/

theorem mem_get_degree {fs : List FrequentSet} {d : Nat} {F : FrequentSet} :
    F ∈ get_degree_fre_sets fs d ↔ F ∈ fs ∧ F.degree = d := by
  simp [get_degree_fre_sets, List.mem_filter]

theorem get_degree_append (fs fs' : List FrequentSet) (d : Nat) :
    get_degree_fre_sets (fs ++ fs') d = get_degree_fre_sets fs d ++ get_degree_fre_sets fs' d :=
  List.filter_append _ _

theorem get_degree_eq_nil {fs : List FrequentSet} {d : Nat} (h : ∀ F ∈ fs, F.degree ≠ d) :
    get_degree_fre_sets fs d = [] := by
  rw [get_degree_fre_sets, List.filter_eq_nil_iff]
  intro F hF
  simpa using h F hF

theorem get_degree_eq_self {fs : List FrequentSet} {d : Nat} (h : ∀ F ∈ fs, F.degree = d) :
    get_degree_fre_sets fs d = fs := by
  rw [get_degree_fre_sets, List.filter_eq_self]
  intro F hF
  simpa using h F hF

theorem len_of_f_degree_eq (fs : List FrequentSet) (d : Nat) :
    len_of_f_degree fs d = (get_degree_fre_sets fs d).length := rfl

theorem len_of_f_degree_append (fs fs' : List FrequentSet) (d : Nat) :
    len_of_f_degree (fs ++ fs') d = len_of_f_degree fs d + len_of_f_degree fs' d := by
  rw [len_of_f_degree_eq, len_of_f_degree_eq, len_of_f_degree_eq, get_degree_append,
    List.length_append]

theorem mem_promote {cs : List CandicateSet} {txns : List Txn} {mc : Nat} {F : FrequentSet} :
    F ∈ promote cs txns mc ↔ ∃ c ∈ cs, mc ≤ c.count + suppCount c.items txns ∧
      F = { degree := c.degree, items := c.items, count := c.count + suppCount c.items txns } := by
  simp only [promote, List.mem_filterMap, count_txns_eq]
  constructor
  · rintro ⟨c, hc, hF⟩
    by_cases hle : mc ≤ c.count + suppCount c.items txns
    · rw [if_pos hle] at hF
      exact ⟨c, hc, hle, (Option.some_inj.mp hF).symm⟩
    · rw [if_neg hle] at hF
      exact absurd hF (by simp)
  · rintro ⟨c, hc, hle, rfl⟩
    exact ⟨c, hc, by rw [if_pos hle]⟩

theorem length_le_of_nodup_subset {α : Type} [DecidableEq α] {l u : List α}
    (h1 : l.Nodup) (h2 : ∀ x ∈ l, x ∈ u) : l.length ≤ u.length := by
  calc l.length = l.toFinset.card := (List.toFinset_card_of_nodup h1).symm
    _ ≤ u.toFinset.card :=
        Finset.card_le_card (fun x hx => List.mem_toFinset.mpr (h2 x (List.mem_toFinset.mp hx)))
    _ ≤ u.length := List.toFinset_card_le u

/-! ### The loop invariant -/

/-- Facts about the degree-1 seed of a run: one `FrequentSet` per universe item,
in universe order, with the tally as count, strictly above the threshold. -/
structure SeedOk (U : List String) (seed : List FrequentSet) (txns : List Txn) (mc : Nat) :
    Prop where
  nodupU : U.Nodup
  degrees : ∀ F ∈ seed, F.degree = 1
  mem_items : ∀ F ∈ seed, ∃ x ∈ U, F.items = [x]
  complete1 : ∀ x ∈ U, ∃ F ∈ seed, F.items = [x]
  counts : ∀ F ∈ seed, mc < F.count ∧ F.count = tally (F.items.headD "") txns
  sorted : seed.Pairwise (fun A B => seqLt U A.items B.items)

/-- The inductive invariant of the level-growing loop, on the state
(collection so far, degree about to be examined). -/
structure LoopInv (U : List String) (seed : List FrequentSet) (txns : List Txn) (mc : Nat)
    (st : List FrequentSet × Nat) : Prop where
  dpos : 1 ≤ st.2
  dbound : st.2 ≤ U.length + 1
  degree_pos : ∀ F ∈ st.1, 1 ≤ F.degree
  degree_le : ∀ F ∈ st.1, F.degree ≤ st.2
  good : ∀ F ∈ st.1, goodSet U F.degree F
  level1 : get_degree_fre_sets st.1 1 = seed
  counts : ∀ F ∈ st.1, 2 ≤ F.degree → F.count = suppCount F.items txns ∧ mc ≤ F.count
  levelSorted : ∀ m, (get_degree_fre_sets st.1 m).Pairwise (fun A B => seqLt U A.items B.items)
  complete : ∀ m, 2 ≤ m → m ≤ st.2 → ∀ S : List String, S.length = m → S.Pairwise (idxLt U) →
    (∀ x ∈ S, x ∈ U) → mc ≤ suppCount S txns → ∃ F ∈ st.1, F.degree = m ∧ F.items = S
  below_pos : ∀ m, 1 ≤ m → m < st.2 → 0 < len_of_f_degree st.1 m

theorem loopInv_init {U : List String} {seed : List FrequentSet} {txns : List Txn} {mc : Nat}
    (hs : SeedOk U seed txns mc) : LoopInv U seed txns mc (seed, 1) := by
  refine ⟨le_refl 1, by simp, ?_, ?_, ?_, ?_, ?_, ?_, ?_, ?_⟩
  · intro F hF; rw [hs.degrees F hF]
  · intro F hF; rw [hs.degrees F hF]
  · intro F hF
    rcases hs.mem_items F hF with ⟨x, hx, hFx⟩
    rw [hs.degrees F hF]
    exact ⟨by simp [hFx], by simp [hFx], by simp [hFx, hx]⟩
  · exact get_degree_eq_self hs.degrees
  · intro F hF h2
    rw [hs.degrees F hF] at h2
    omega
  · intro m
    by_cases hm : m = 1
    · subst hm
      rw [get_degree_eq_self hs.degrees]
      exact hs.sorted
    · rw [get_degree_eq_nil (fun F hF => by rw [hs.degrees F hF]; exact fun h => hm h.symm)]
      exact List.Pairwise.nil
  · intro m h2 h1
    omega
  · intro m h1 h2
    omega

theorem getD_append_singleton {α : Type} (P : List α) (x d' : α) :
    (P ++ [x]).getD P.length d' = x := by
  induction P with
  | nil => rfl
  | cons p P ih => simpa [List.getD] using ih

theorem promote_fun_eq {txns : List Txn} {mc : Nat} {c : CandicateSet} {F : FrequentSet}
    (h : F ∈ (if mc ≤ count_txns c.items c.count txns then
      some ({ degree := c.degree, items := c.items,
              count := count_txns c.items c.count txns } : FrequentSet) else none)) :
    F.degree = c.degree ∧ F.items = c.items := by
  split at h
  · simp only [Option.mem_def, Option.some_inj] at h
    subst h
    exact ⟨rfl, rfl⟩
  · exact absurd h (by simp)

theorem complete_step {U : List String} {seed : List FrequentSet} {txns : List Txn} {mc : Nat}
    {fs : List FrequentSet} {d : Nat} (hs : SeedOk U seed txns mc)
    (hInv : LoopInv U seed txns mc (fs, d))
    {S : List String} (hlen : S.length = d + 1) (hpw : S.Pairwise (idxLt U))
    (hsub : ∀ x ∈ S, x ∈ U) (hsupp : mc ≤ suppCount S txns) :
    ∃ F ∈ fs ++ promote (get_candi_from_f fs d) txns mc, F.degree = d + 1 ∧ F.items = S := by
  have hd1 : 1 ≤ d := hInv.dpos
  have getFre : ∀ T : List String, 1 ≤ T.length → T.length ≤ d → T.Pairwise (idxLt U) →
      (∀ x ∈ T, x ∈ U) → mc ≤ suppCount T txns →
      ∃ F ∈ fs, F.degree = T.length ∧ F.items = T := by
    intro T h1 h2 h3 h4 h5
    rcases Nat.lt_or_ge T.length 2 with hlt | hge
    · have hT1 : T.length = 1 := by omega
      have hTd : T = [T.getD 0 ""] := by
        have := take_getD_decomp T "" 0 (by omega)
        simpa using this
      have hx : T.getD 0 "" ∈ U := h4 _ (by rw [hTd]; simp)
      rcases hs.complete1 _ hx with ⟨F, hFseed, hFitems⟩
      have hFfs : F ∈ fs := by
        have : F ∈ get_degree_fre_sets fs 1 := by rw [hInv.level1]; exact hFseed
        exact (mem_get_degree.mp this).1
      refine ⟨F, hFfs, ?_, by rw [hFitems, ← hTd]⟩
      rw [hT1]
      exact hs.degrees F hFseed
    · exact hInv.complete T.length hge h2 T rfl h3 h4 h5
  -- decompose S as P ++ [a, b]
  set P := S.take (d - 1) with hPdef
  set a := S.getD (d - 1) "" with hadef
  set b := S.getD d "" with hbdef
  have hPlen : P.length = d - 1 := by
    rw [hPdef, List.length_take]
    omega
  have hSd : S = S.take d ++ [b] := take_getD_decomp S "" d (by omega)
  have htdlen : (S.take d).length = d := by
    rw [List.length_take]
    omega
  have hta : S.take d = P ++ [a] := by
    have h0 := take_getD_decomp (S.take d) "" (d - 1) (by rw [htdlen]; omega)
    have h1 : (S.take d).take (d - 1) = P := by
      rw [List.take_take, hPdef]
      congr 1
      omega
    have h2 : (S.take d).getD (d - 1) "" = a := by
      rw [List.getD_eq_getElem _ _ (by rw [htdlen]; omega), List.getElem_take, hadef,
        List.getD_eq_getElem _ _ (by omega)]
    rw [h1, h2] at h0
    exact h0
  have hPab : S = P ++ [a, b] := by
    rw [hSd, hta, List.append_assoc]
    rfl
  -- the two parents
  have hab : idxLt U a b := by
    rw [hPab] at hpw
    rcases List.pairwise_append.mp hpw with ⟨-, hab2, -⟩
    rcases List.pairwise_cons.mp hab2 with ⟨h1, -⟩
    exact h1 b (by simp)
  have hane : a ≠ b := by
    intro he
    rw [he] at hab
    exact lt_irrefl _ hab
  have hA_sub : (P ++ [a]).Sublist S := by
    rw [hPab]
    exact (List.Sublist.cons₂ a (List.nil_sublist [b])).append_left P
  have hB_sub : (P ++ [b]).Sublist S := by
    rw [hPab]
    exact (List.Sublist.cons a (List.Sublist.refl [b])).append_left P
  have hAlen : (P ++ [a]).length = d := by
    simp [hPlen]
    omega
  have hBlen : (P ++ [b]).length = d := by
    simp [hPlen]
    omega
  obtain ⟨FA, hFAfs, hFAdeg, hFAit⟩ :=
    getFre (P ++ [a]) (by omega) (by omega) (hpw.sublist hA_sub)
      (fun x hx => hsub x (hA_sub.subset hx))
      (le_trans hsupp (suppCount_mono (fun x hx => hA_sub.subset hx) txns))
  obtain ⟨FB, hFBfs, hFBdeg, hFBit⟩ :=
    getFre (P ++ [b]) (by omega) (by omega) (hpw.sublist hB_sub)
      (fun x hx => hsub x (hB_sub.subset hx))
      (le_trans hsupp (suppCount_mono (fun x hx => hB_sub.subset hx) txns))
  rw [hAlen] at hFAdeg
  rw [hBlen] at hFBdeg
  have hFAdfs : FA ∈ get_degree_fre_sets fs d := mem_get_degree.mpr ⟨hFAfs, hFAdeg⟩
  have hFBdfs : FB ∈ get_degree_fre_sets fs d := mem_get_degree.mpr ⟨hFBfs, hFBdeg⟩
  have hseq : seqLt U FA.items FB.items := by
    rw [hFAit, hFBit]
    exact (seqLt_append_iff U P a b).mpr hab
  have hpair : [FA, FB].Sublist (get_degree_fre_sets fs d) :=
    pair_sublist_of_seqLt (hInv.levelSorted d) hFAdfs hFBdfs hseq
  have hgetA : FA.items.getD (d - 1) "" = a := by
    rw [hFAit, ← hPlen]
    exact getD_append_singleton P a ""
  have hgetB : FB.items.getD (d - 1) "" = b := by
    rw [hFBit, ← hPlen]
    exact getD_append_singleton P b ""
  have hjoin : joinOne d FA FB =
      some { degree := d + 1, items := FA.items ++ [FB.items.getD (d - 1) ""], count := 0 } := by
    refine joinOne_some.mpr ⟨?_, ?_, rfl⟩
    · rw [hFAit, hFBit, List.take_left' hPlen, List.take_left' hPlen]
    · rw [hgetA, hgetB]
      exact hane
  have hcmem :
      ({ degree := d + 1, items := FA.items ++ [FB.items.getD (d - 1) ""],
         count := 0 } : CandicateSet) ∈ get_candi_from_f fs d :=
    mem_pairJoin.mpr ⟨FA, FB, hpair, hjoin⟩
  have hitems : FA.items ++ [FB.items.getD (d - 1) ""] = S := by
    rw [hgetB, hFAit, hPab]
    simp
  have hprom : ({ degree := d + 1, items := S, count := 0 + suppCount S txns } : FrequentSet) ∈
      promote (get_candi_from_f fs d) txns mc := by
    refine mem_promote.mpr ⟨_, hcmem, ?_, ?_⟩
    · show mc ≤ 0 + suppCount (FA.items ++ [FB.items.getD (d - 1) ""]) txns
      rw [hitems, Nat.zero_add]
      exact hsupp
    · show ({ degree := d + 1, items := S, count := 0 + suppCount S txns } : FrequentSet) =
        { degree := d + 1, items := FA.items ++ [FB.items.getD (d - 1) ""],
          count := 0 + suppCount (FA.items ++ [FB.items.getD (d - 1) ""]) txns }
      rw [hitems]
  exact ⟨_, List.mem_append_right fs hprom, rfl, rfl⟩

theorem loopInv_step {U : List String} {seed : List FrequentSet} {txns : List Txn} {mc : Nat}
    (hs : SeedOk U seed txns mc) {st : List FrequentSet × Nat}
    (h : LoopInv U seed txns mc st) : LoopInv U seed txns mc (levelStep txns mc st) := by
  obtain ⟨fs, d⟩ := st
  by_cases hg : 0 < len_of_f_degree fs d
  · have hd1 : 1 ≤ d := h.dpos
    have hgood_dfs : ∀ F ∈ get_degree_fre_sets fs d, goodSet U d F := by
      intro F hF
      rcases mem_get_degree.mp hF with ⟨hFfs, hFd⟩
      have := h.good F hFfs
      rwa [hFd] at this
    have hsort_dfs := h.levelSorted d
    have hCpw := pairJoin_pairwise hd1 hgood_dfs hsort_dfs
    have hCfact : ∀ c ∈ get_candi_from_f fs d, c.degree = d + 1 ∧ c.count = 0 ∧
        c.items.length = d + 1 ∧ c.items.Pairwise (idxLt U) ∧ (∀ x ∈ c.items, x ∈ U) := by
      intro c hc
      rcases mem_pairJoin.mp hc with ⟨A, B, hsubl, hj⟩
      have hA : A ∈ get_degree_fre_sets fs d := hsubl.subset (by simp)
      have hB : B ∈ get_degree_fre_sets fs d := hsubl.subset (by simp)
      have hAB : seqLt U A.items B.items := by
        have hp := List.Pairwise.sublist hsubl hsort_dfs
        rcases List.pairwise_cons.mp hp with ⟨h1, -⟩
        exact h1 B (by simp)
      obtain ⟨c1, c2, -, c4, c5, c6⟩ :=
        joinOne_good hd1 (hgood_dfs A hA) (hgood_dfs B hB) hAB hj
      exact ⟨c1, c2, c4, c5, c6⟩
    have hdU : d ≤ U.length := by
      rw [len_of_f_degree_eq] at hg
      have hne : get_degree_fre_sets fs d ≠ [] := by
        intro he
        rw [he] at hg
        simp at hg
      obtain ⟨F0, hF0⟩ := List.exists_mem_of_ne_nil _ hne
      have hgF0 := hgood_dfs F0 hF0
      have hlen : F0.items.length ≤ U.length :=
        length_le_of_nodup_subset (nodup_of_pairwise_idxLt hgF0.2.1) hgF0.2.2
      rw [hgF0.1] at hlen
      exact hlen
    have hPfact : ∀ F ∈ promote (get_candi_from_f fs d) txns mc,
        F.degree = d + 1 ∧ F.count = suppCount F.items txns ∧ mc ≤ F.count ∧
          goodSet U (d + 1) F := by
      intro F hF
      rcases mem_promote.mp hF with ⟨c, hc, hle, rfl⟩
      obtain ⟨c1, c2, c3, c4, c5⟩ := hCfact c hc
      rw [c2, Nat.zero_add] at hle
      refine ⟨c1, by simp [c2], by simpa [c2] using hle, ?_⟩
      exact ⟨by simpa using c3, c4, c5⟩
    have hstep : levelStep txns mc (fs, d) =
        (fs ++ promote (get_candi_from_f fs d) txns mc, d + 1) := by
      simp [levelStep, hg]
    rw [hstep]
    refine ⟨by omega, by simp; omega, ?_, ?_, ?_, ?_, ?_, ?_, ?_, ?_⟩
    · intro F hF
      rcases List.mem_append.mp hF with hF | hF
      · exact h.degree_pos F hF
      · rw [(hPfact F hF).1]
        omega
    · intro F hF
      rcases List.mem_append.mp hF with hF | hF
      · have := h.degree_le F hF
        simp only at this ⊢
        omega
      · rw [(hPfact F hF).1]
    · intro F hF
      rcases List.mem_append.mp hF with hF | hF
      · exact h.good F hF
      · have := (hPfact F hF).2.2.2
        rwa [(hPfact F hF).1]
    · rw [get_degree_append, h.level1, get_degree_eq_nil (fun F hF => by
        rw [(hPfact F hF).1]
        omega)]
      simp
    · intro F hF h2
      rcases List.mem_append.mp hF with hF | hF
      · exact h.counts F hF h2
      · exact ⟨(hPfact F hF).2.1, (hPfact F hF).2.2.1⟩
    · intro m
      rw [get_degree_append]
      by_cases hm : m = d + 1
      · subst hm
        rw [get_degree_eq_nil (fun F hF => by
          have := h.degree_le F hF
          simp only at this
          omega), List.nil_append,
          get_degree_eq_self (fun F hF => (hPfact F hF).1)]
        simp only [promote]
        rw [List.pairwise_filterMap]
        refine hCpw.imp_of_mem ?_
        intro c c' hcm hc'm hrel F hF F' hF'
        obtain ⟨-, hFi⟩ := promote_fun_eq hF
        obtain ⟨-, hF'i⟩ := promote_fun_eq hF'
        rw [hFi, hF'i]
        exact hrel
      · have hnil : get_degree_fre_sets (promote (get_candi_from_f fs d) txns mc) m = [] :=
          get_degree_eq_nil (fun F hF => by
            rw [(hPfact F hF).1]
            exact fun he => hm he.symm)
        rw [hnil, List.append_nil]
        exact h.levelSorted m
    · intro m h2 hmd S hlen hpw hsub hsupp
      simp only at hmd
      rcases Nat.lt_or_ge m (d + 1) with hlt | hge
      · obtain ⟨F, hF, hFd, hFi⟩ := h.complete m h2 (by omega) S hlen hpw hsub hsupp
        exact ⟨F, List.mem_append_left _ hF, hFd, hFi⟩
      · have hm : m = d + 1 := by omega
        subst hm
        exact complete_step hs h hlen hpw hsub hsupp
    · intro m h1 hm
      simp only at hm
      rw [len_of_f_degree_append]
      rcases Nat.lt_or_ge m d with hlt | hge
      · have hbp : 0 < len_of_f_degree fs m := h.below_pos m h1 hlt
        omega
      · have hmd : m = d := by omega
        subst hmd
        omega
  · have hstep : levelStep txns mc (fs, d) = (fs, d) := by
      simp [levelStep, hg]
    rw [hstep]
    exact h

theorem loopInv_genStates {U : List String} {seed : List FrequentSet} {txns : List Txn}
    {mc : Nat} (hs : SeedOk U seed txns mc) :
    ∀ k, LoopInv U seed txns mc (genStates seed txns mc k) := by
  intro k
  induction k with
  | zero => exact loopInv_init hs
  | succ k ih =>
    rw [genStates, Function.iterate_succ_apply']
    exact loopInv_step hs ih

/-! ### The seed of a run satisfies `SeedOk` -/

theorem mem_init_fre_set {fl : List (String × Nat)} {F : FrequentSet} :
    F ∈ init_fre_set fl ↔ ∃ e ∈ fl, F = { degree := 1, items := [e.1], count := e.2 } := by
  simp only [init_fre_set, List.mem_map]
  constructor
  · rintro ⟨e, he, rfl⟩
    exact ⟨e, he, rfl⟩
  · rintro ⟨e, he, rfl⟩
    exact ⟨e, he, rfl⟩

theorem mem_create_frequent_set_1 {enum : List (String × Nat)} {mc : Nat}
    {e : String × Nat} :
    e ∈ create_frequent_set_1 enum mc ↔ e ∈ enum ∧ mc < e.2 := by
  simp [create_frequent_set_1, List.mem_filter]

theorem seedOk_pipeline (txns : List Txn) (mc : Nat) {enum : List (String × Nat)}
    (henum : enum.Perm (create_candicate_set_1 txns)) :
    SeedOk (seed_items enum mc) (init_fre_set (create_frequent_set_1 enum mc)) txns mc := by
  have hkeys : (enum.map Prod.fst).Nodup :=
    (henum.map Prod.fst).nodup_iff.mpr (nodup_keys_create txns)
  have hU : (seed_items enum mc).Nodup := by
    have hsl : ((create_frequent_set_1 enum mc).map Prod.fst).Sublist (enum.map Prod.fst) :=
      (List.filter_sublist enum).map Prod.fst
    exact List.Nodup.sublist hsl hkeys
  refine ⟨hU, ?_, ?_, ?_, ?_, ?_⟩
  · intro F hF
    rcases mem_init_fre_set.mp hF with ⟨e, he, rfl⟩
    rfl
  · intro F hF
    rcases mem_init_fre_set.mp hF with ⟨e, he, rfl⟩
    exact ⟨e.1, List.mem_map_of_mem Prod.fst he, rfl⟩
  · intro x hx
    rcases List.mem_map.mp hx with ⟨e, he, rfl⟩
    exact ⟨{ degree := 1, items := [e.1], count := e.2 },
      mem_init_fre_set.mpr ⟨e, he, rfl⟩, rfl⟩
  · intro F hF
    rcases mem_init_fre_set.mp hF with ⟨e, he, rfl⟩
    rcases mem_create_frequent_set_1.mp he with ⟨henm, hmc⟩
    have hemem : e ∈ create_candicate_set_1 txns := henum.mem_iff.mp henm
    have : e.2 = lookupCount (create_candicate_set_1 txns) e.1 := by
      have h2 := (mem_iff_lookup (nodup_keys_create txns)
        (x := e.1) (c := e.2)).mp (by simpa using hemem)
      exact h2.2
    refine ⟨hmc, ?_⟩
    simp only [List.headD_cons]
    rw [this, lookupCount_create]
  · have hpw : (seed_items enum mc).Pairwise (idxLt (seed_items enum mc)) :=
      pairwise_idxLt_self hU
    refine List.pairwise_map.mpr ?_
    rw [seed_items] at hpw
    refine (List.pairwise_map.mp hpw).imp ?_
    intro e e' h12
    exact (seqLt_singleton _ _ _).mpr h12

/-! ### Termination of the level loop -/

theorem levelStep_fix_iff (txns : List Txn) (mc : Nat) (st : List FrequentSet × Nat) :
    levelStep txns mc st = st ↔ len_of_f_degree st.1 st.2 = 0 := by
  obtain ⟨fs, d⟩ := st
  constructor
  · intro h
    by_contra hne
    have hg : 0 < len_of_f_degree fs d := Nat.pos_of_ne_zero hne
    have h2 : levelStep txns mc (fs, d) =
        (fs ++ promote (get_candi_from_f fs d) txns mc, d + 1) := by
      simp [levelStep, hg]
    rw [h2] at h
    have := congrArg Prod.snd h
    simp at this
  · intro h
    simp [levelStep, h]

theorem genStates_succ (seed : List FrequentSet) (txns : List Txn) (mc : Nat) (k : Nat) :
    genStates seed txns mc (k + 1) = levelStep txns mc (genStates seed txns mc k) := by
  rw [genStates, Function.iterate_succ_apply', genStates]

theorem genStates_deg_or_fix (seed : List FrequentSet) (txns : List Txn) (mc : Nat) :
    ∀ k, (genStates seed txns mc k).2 = k + 1 ∨
      levelStep txns mc (genStates seed txns mc k) = genStates seed txns mc k := by
  intro k
  induction k with
  | zero => exact Or.inl rfl
  | succ k ih =>
    rcases ih with hdeg | hfix
    · by_cases hg : 0 < len_of_f_degree (genStates seed txns mc k).1 (genStates seed txns mc k).2
      · left
        have h2 : (levelStep txns mc (genStates seed txns mc k)).2 =
            (genStates seed txns mc k).2 + 1 := by
          rw [levelStep, if_pos hg]
        rw [genStates_succ, h2, hdeg]
      · right
        have hfix : levelStep txns mc (genStates seed txns mc k) = genStates seed txns mc k :=
          (levelStep_fix_iff txns mc _).mpr (by omega)
        rw [genStates_succ, hfix]
        exact hfix
    · right
      rw [genStates_succ, hfix]
      exact hfix

theorem seed_items_length (enum : List (String × Nat)) (mc : Nat) :
    (seed_items enum mc).length = (init_fre_set (create_frequent_set_1 enum mc)).length := by
  simp [seed_items, init_fre_set]

theorem pipeline_fix (txns : List Txn) (mc : Nat) {enum : List (String × Nat)}
    (henum : enum.Perm (create_candicate_set_1 txns)) :
    levelStep txns mc
      (genStates (init_fre_set (create_frequent_set_1 enum mc)) txns mc
        ((init_fre_set (create_frequent_set_1 enum mc)).length + 1)) =
      genStates (init_fre_set (create_frequent_set_1 enum mc)) txns mc
        ((init_fre_set (create_frequent_set_1 enum mc)).length + 1) := by
  set seed := init_fre_set (create_frequent_set_1 enum mc) with hseed
  rcases genStates_deg_or_fix seed txns mc (seed.length + 1) with hdeg | hfix
  · exfalso
    have hInv := loopInv_genStates (seedOk_pipeline txns mc henum) (seed.length + 1)
    have hb := hInv.dbound
    rw [hdeg] at hb
    rw [← seed_items_length enum mc] at hb
    omega
  · exact hfix

theorem pipeline_stable (txns : List Txn) (mc : Nat) {enum : List (String × Nat)}
    (henum : enum.Perm (create_candicate_set_1 txns)) :
    ∀ n, (init_fre_set (create_frequent_set_1 enum mc)).length + 1 ≤ n →
      genStates (init_fre_set (create_frequent_set_1 enum mc)) txns mc n =
        genStates (init_fre_set (create_frequent_set_1 enum mc)) txns mc
          ((init_fre_set (create_frequent_set_1 enum mc)).length + 1) := by
  intro n hn
  set seed := init_fre_set (create_frequent_set_1 enum mc) with hseed
  have hsplit : n = (n - (seed.length + 1)) + (seed.length + 1) := by omega
  rw [genStates, hsplit, Function.iterate_add_apply]
  exact Function.iterate_fixed (pipeline_fix txns mc henum) _

/-! ### Mask selection -/

theorem specSelect_zero (l : List String) : specSelect 0 l = [] := by
  induction l with
  | nil => rfl
  | cons x xs ih => simp [specSelect, ih]

theorem specSelect_sublist (i : Nat) (l : List String) : (specSelect i l).Sublist l := by
  induction l generalizing i with
  | nil => simp [specSelect]
  | cons x xs ih =>
    simp only [specSelect]
    by_cases h : i % 2 = 1
    · rw [if_pos h]
      exact List.Sublist.cons₂ x (ih _)
    · rw [if_neg h]
      exact List.Sublist.cons x (ih _)

theorem specSelect_ne_nil {i : Nat} {l : List String} (h1 : 1 ≤ i) (h2 : i < 2 ^ l.length) :
    specSelect i l ≠ [] := by
  induction l generalizing i with
  | nil =>
    simp only [List.length_nil, pow_zero] at h2
    omega
  | cons x xs ih =>
    simp only [specSelect]
    by_cases h : i % 2 = 1
    · rw [if_pos h]
      simp
    · rw [if_neg h]
      have hp : (2:Nat) ^ (x :: xs).length = 2 * 2 ^ xs.length := by
        rw [List.length_cons, pow_succ]
        ring
      rw [hp] at h2
      exact ih (by omega) (by omega)

theorem fromLoop_eq (items : List String) :
    ∀ i pos, i < 2 ^ (items.length - pos) →
      fromLoop items i pos = some (specSelect i (items.drop pos)) := by
  intro i
  induction i using Nat.strong_induction_on with
  | _ i ih =>
    intro pos hlt
    by_cases h0 : i = 0
    · subst h0
      rw [fromLoop]
      simp [specSelect_zero]
    · have hpos : 0 < i := Nat.pos_of_ne_zero h0
      have hlen : pos < items.length := by
        by_contra hge
        push_neg at hge
        have hz : items.length - pos = 0 := by omega
        rw [hz, pow_zero] at hlt
        omega
      have hdrop : items.drop pos = items.getD pos "" :: items.drop (pos + 1) := by
        rw [List.getD_eq_getElem _ _ hlen]
        exact List.drop_eq_getElem_cons hlen
      have hget : items.get? pos = some (items.getD pos "") := by
        rw [List.getD_eq_getElem _ _ hlen, List.get?_eq_getElem?]
        exact List.getElem?_eq_getElem hlen
      have hrec : i / 2 < 2 ^ (items.length - (pos + 1)) := by
        have h2 : items.length - pos = (items.length - (pos + 1)) + 1 := by omega
        rw [h2, pow_succ] at hlt
        omega
      have hIH := ih (i / 2) (Nat.div_lt_self hpos one_lt_two) (pos + 1) hrec
      rw [fromLoop, dif_neg h0]
      by_cases hm : i % 2 = 1
      · rw [if_pos hm, hget, hIH, hdrop]
        simp [specSelect, hm]
      · rw [if_neg hm, hIH, hdrop]
        simp [specSelect, hm]

theorem filter_not_mem_specSelect {l : List String} (hn : l.Nodup) :
    ∀ i, l.filter (fun x => decide (x ∉ specSelect i l)) = specCompl i l := by
  induction l with
  | nil => intro i; rfl
  | cons x xs ih =>
    intro i
    rcases List.nodup_cons.mp hn with ⟨hx, hxs⟩
    by_cases hm : i % 2 = 1
    · simp only [specSelect, if_pos hm, specCompl, List.filter_cons]
      have hxd : (decide (x ∉ x :: specSelect (i / 2) xs)) = false := by simp
      rw [hxd]
      have hcongr : xs.filter (fun w => decide (w ∉ x :: specSelect (i / 2) xs)) =
          xs.filter (fun w => decide (w ∉ specSelect (i / 2) xs)) := by
        apply List.filter_congr
        intro w hw
        have hwx : w ≠ x := fun he => hx (he ▸ hw)
        simp [hwx]
      simp only [hcongr, ih hxs]
      simp
    · simp only [specSelect, if_neg hm, specCompl, List.filter_cons]
      have hxsel : x ∉ specSelect (i / 2) xs :=
        fun hc => hx ((specSelect_sublist _ _).subset hc)
      have hxd : (decide (x ∉ specSelect (i / 2) xs)) = true := by simpa using hxsel
      rw [hxd]
      simp only [ih hxs]
      simp

/-! ### Rule generation -/

theorem inv_find {U : List String} {seed : List FrequentSet} {txns : List Txn} {mc : Nat}
    {fs : List FrequentSet} {d : Nat} (hs : SeedOk U seed txns mc)
    (hInv : LoopInv U seed txns mc (fs, d)) (T : List String) (h1 : 1 ≤ T.length)
    (h2 : T.length ≤ d) (h3 : T.Pairwise (idxLt U)) (h4 : ∀ x ∈ T, x ∈ U)
    (h5 : mc ≤ suppCount T txns) : ∃ F ∈ fs, F.degree = T.length ∧ F.items = T := by
  rcases Nat.lt_or_ge T.length 2 with hlt | hge
  · have hT1 : T.length = 1 := by omega
    have hTd : T = [T.getD 0 ""] := by
      have := take_getD_decomp T "" 0 (by omega)
      simpa using this
    have hx : T.getD 0 "" ∈ U := h4 _ (by rw [hTd]; simp)
    rcases hs.complete1 _ hx with ⟨F, hFseed, hFitems⟩
    have hFfs : F ∈ fs := by
      have : F ∈ get_degree_fre_sets fs 1 := by rw [hInv.level1]; exact hFseed
      exact (mem_get_degree.mp this).1
    refine ⟨F, hFfs, ?_, by rw [hFitems, ← hTd]⟩
    rw [hT1]
    exact hs.degrees F hFseed
  · exact hInv.complete T.length hge h2 T rfl h3 h4 h5

theorem filter_bnot_mem_specSelect {l : List String} (hn : l.Nodup) (i : Nat) :
    l.filter (fun x => !decide (x ∈ specSelect i l)) = specCompl i l := by
  simpa [decide_not] using filter_not_mem_specSelect hn i

theorem maskRules_eq {fs : List FrequentSet} {mcf : ℚ} {n : Nat} {F : FrequentSet}
    (hFlen : F.items.length = F.degree) (hFnd : F.items.Nodup) :
    ∀ ms : List Nat,
      (∀ i ∈ ms, i < 2 ^ F.degree ∧
        (fs.find? (fun x => decide (x.items = specSelect i F.items))).isSome) →
      maskRules fs mcf n F ms = some (ms.filterMap (specRuleOfMask fs mcf n F)) := by
  intro ms
  induction ms with
  | nil => intro _; rfl
  | cons i rest ih =>
    intro hms
    obtain ⟨hi_lt, hi_find⟩ := hms i (List.mem_cons_self i rest)
    have hfl : fromLoop F.items i 0 = some (specSelect i F.items) := by
      have h0 := fromLoop_eq F.items i 0 (by simpa [hFlen] using hi_lt)
      simpa using h0
    obtain ⟨G, hG⟩ := Option.isSome_iff_exists.mp hi_find
    have hrest := ih (fun j hj => hms j (List.mem_cons_of_mem i hj))
    simp only [maskRules, hfl, Option.some_bind, hG, hrest, List.filterMap_cons,
      specRuleOfMask]
    by_cases hconf : mcf ≤ (F.count : ℚ) / (G.count : ℚ)
    · simp [hG, hconf, filter_bnot_mem_specSelect hFnd]
    · simp [hG, hconf, filter_bnot_mem_specSelect hFnd]

theorem rulesLoop_eq {fs : List FrequentSet} {mcf : ℚ} {n : Nat}
    (hdeg : ∀ F ∈ fs, 1 ≤ F.degree)
    (hlen : ∀ F ∈ fs, F.items.length = F.degree)
    (hnd : ∀ F ∈ fs, F.items.Nodup)
    (hfind : ∀ F ∈ fs, 2 ≤ F.degree → ∀ i, 1 ≤ i → i ≤ 2 ^ F.degree - 2 →
      (fs.find? (fun x => decide (x.items = specSelect i F.items))).isSome) :
    ∀ L : List FrequentSet, (∀ F ∈ L, F ∈ fs) →
      rulesLoop fs mcf n L =
        some ((L.filter (fun F => decide (2 ≤ F.degree))).flatMap (fun F =>
          (List.range' 1 (2 ^ F.degree - 2)).filterMap (specRuleOfMask fs mcf n F))) := by
  intro L
  induction L with
  | nil => intro _; rfl
  | cons F rest ih =>
    intro hsub
    have hF : F ∈ fs := hsub F (List.mem_cons_self F rest)
    have hrest := ih (fun G hG => hsub G (List.mem_cons_of_mem F hG))
    by_cases h1 : F.degree = 1
    · have hd2 : (decide (2 ≤ F.degree)) = false := by simp [h1]
      simp only [rulesLoop, if_pos h1, hrest, List.filter_cons, hd2]
      simp
    · have h2 : 2 ≤ F.degree := by
        have := hdeg F hF
        omega
    
      have h4le : 4 ≤ 2 ^ F.degree := by
        calc (4:Nat) = 2 ^ 2 := by norm_num
          _ ≤ 2 ^ F.degree := Nat.pow_le_pow_right (by norm_num) h2
      have hmask : ∀ i ∈ List.range' 1 (2 ^ F.degree - 1 - 1), i < 2 ^ F.degree ∧
          (fs.find? (fun x => decide (x.items = specSelect i F.items))).isSome := by
        intro i hi
        rcases List.mem_range'_1.mp hi with ⟨hi1, hi2⟩
        refine ⟨by omega, hfind F hF h2 i hi1 (by omega)⟩
      have hd2 : (decide (2 ≤ F.degree)) = true := by simp [h2]
      have hrange : 2 ^ F.degree - 1 - 1 = 2 ^ F.degree - 2 := by omega
      rw [hrange] at hmask
      simp only [rulesLoop, if_neg h1, hrange,
        maskRules_eq (hlen F hF) (hnd F hF) _ hmask, Option.some_bind, hrest,
        List.filter_cons, hd2]
      simp

/-- The loop's terminal state of a run. -/
def finalState (enum : List (String × Nat)) (txns : List Txn) (mc : Nat) :
    List FrequentSet × Nat :=
  genStates (init_fre_set (create_frequent_set_1 enum mc)) txns mc
    ((init_fre_set (create_frequent_set_1 enum mc)).length + 1)

theorem final_inv (txns : List Txn) (mc : Nat) {enum : List (String × Nat)}
    (henum : enum.Perm (create_candicate_set_1 txns)) :
    LoopInv (seed_items enum mc) (init_fre_set (create_frequent_set_1 enum mc)) txns mc
      (pipelineFreSets enum txns mc, (finalState enum txns mc).2) :=
  loopInv_genStates (seedOk_pipeline txns mc henum)
    ((init_fre_set (create_frequent_set_1 enum mc)).length + 1)

theorem pipeline_hfind (txns : List Txn) (mc : Nat) {enum : List (String × Nat)}
    (henum : enum.Perm (create_candicate_set_1 txns)) :
    ∀ F ∈ pipelineFreSets enum txns mc, 2 ≤ F.degree → ∀ i, 1 ≤ i → i ≤ 2 ^ F.degree - 2 →
      ((pipelineFreSets enum txns mc).find?
        (fun x => decide (x.items = specSelect i F.items))).isSome := by
  intro F hF h2 i hi1 hi2
  have hInv := final_inv txns mc henum
  have hgood := hInv.good F hF
  have hlen : F.items.length = F.degree := hgood.1
  have hsubl : (specSelect i F.items).Sublist F.items := specSelect_sublist i F.items
  have h4le : 4 ≤ 2 ^ F.degree := by
    calc (4:Nat) = 2 ^ 2 := by norm_num
      _ ≤ 2 ^ F.degree := Nat.pow_le_pow_right (by norm_num) h2
  have hlt : i < 2 ^ F.items.length := by
    rw [hlen]
    omega
  have hne : specSelect i F.items ≠ [] := specSelect_ne_nil hi1 hlt
  have hlen1 : 1 ≤ (specSelect i F.items).length := by
    have := List.length_pos.mpr hne
    omega
  have hlen2 : (specSelect i F.items).length ≤ (finalState enum txns mc).2 := by
    have ha := hsubl.length_le
    have hb := hInv.degree_le F hF
    simp only at hb
    omega
  have hsupp : mc ≤ suppCount (specSelect i F.items) txns := by
    have hc := hInv.counts F hF h2
    have hm := suppCount_mono (fun x hx => hsubl.subset hx) txns
    omega
  obtain ⟨G, hG, hGd, hGi⟩ :=
    inv_find (seedOk_pipeline txns mc henum) hInv (specSelect i F.items) hlen1 hlen2
      (List.Pairwise.sublist hsubl hgood.2.1)
      (fun x hx => hgood.2.2 x (hsubl.subset hx)) hsupp
  exact List.find?_isSome.mpr ⟨G, hG, by simp [hGi]⟩

theorem pipeline_rules (txns : List Txn) (mc : Nat) (mcf : ℚ) (n : Nat)
    {enum : List (String × Nat)} (henum : enum.Perm (create_candicate_set_1 txns)) :
    generate_association_rules (pipelineFreSets enum txns mc) mcf n =
      some (specRules (pipelineFreSets enum txns mc) mcf n) := by
  have hInv := final_inv txns mc henum
  exact rulesLoop_eq hInv.degree_pos (fun F hF => (hInv.good F hF).1)
    (fun F hF => nodup_of_pairwise_idxLt (hInv.good F hF).2.1)
    (pipeline_hfind txns mc henum) _ (fun F hF => hF)

/-! ### Candidate generation as an indexed pair enumeration -/

theorem pairJoin_eq_indexed (d : Nat) (l : List FrequentSet) :
    pairJoin d l = (List.range l.length).flatMap (fun i =>
      (List.range' (i + 1) (l.length - (i + 1))).filterMap (fun j =>
        joinOne d (l.getD i { degree := 0, items := [], count := 0 })
          (l.getD j { degree := 0, items := [], count := 0 }))) := by
  induction l with
  | nil => rfl
  | cons f rest ih =>
    rw [List.length_cons, List.range_succ_eq_map, List.flatMap_cons, List.flatMap_map]
    have hhead : (List.range' (0 + 1) (rest.length + 1 - (0 + 1))).filterMap (fun j =>
        joinOne d ((f :: rest).getD 0 { degree := 0, items := [], count := 0 })
          ((f :: rest).getD j { degree := 0, items := [], count := 0 })) =
        rest.filterMap (fun g => joinOne d f g) := by
      rw [show (0:Nat) + 1 = 1 from rfl, Nat.add_sub_cancel, List.range'_eq_map_range,
        List.filterMap_map]
      have hfun : ((fun j => joinOne d ((f :: rest).getD 0 { degree := 0, items := [], count := 0 })
          ((f :: rest).getD j { degree := 0, items := [], count := 0 })) ∘ (fun x => 1 + x)) =
          (fun j => joinOne d f (rest.getD j { degree := 0, items := [], count := 0 })) := by
        funext j
        have h1 : (1:Nat) + j = j + 1 := Nat.add_comm 1 j
        simp only [Function.comp_apply, h1]
        rfl
      rw [hfun, filterMap_getD_range]
    rw [hhead]
    show rest.filterMap (fun g => joinOne d f g) ++ pairJoin d rest = _
    congr 1
    rw [ih]
    congr 1
    funext i
    show (List.range' (i + 1) (rest.length - (i + 1))).filterMap (fun j =>
        joinOne d (rest.getD i { degree := 0, items := [], count := 0 })
          (rest.getD j { degree := 0, items := [], count := 0 })) =
      (List.range' (Nat.succ i + 1) (rest.length + 1 - (Nat.succ i + 1))).filterMap (fun j =>
        joinOne d ((f :: rest).getD (Nat.succ i) { degree := 0, items := [], count := 0 })
          ((f :: rest).getD j { degree := 0, items := [], count := 0 }))
    symm
    rw [show Nat.succ i + 1 = 1 + (i + 1) by omega,
      show rest.length + 1 - (1 + (i + 1)) = rest.length - (i + 1) by omega,
      ← List.map_add_range' 1 (i + 1) (rest.length - (i + 1)), List.filterMap_map]
    congr 1
    funext j
    simp only [Function.comp_apply]
    rw [show (1:Nat) + j = j + 1 by omega]
    rfl

theorem get_candi_eq_candSpec (fre_sets : List FrequentSet) (degree : Nat) :
    get_candi_from_f fre_sets degree = candSpec fre_sets degree :=
  pairJoin_eq_indexed degree (get_degree_fre_sets fre_sets degree)

/-! ### The ingestion order agrees with the order on strings -/

theorem charListLe_iff_not_lt : ∀ as bs : List Char, charListLe as bs = true ↔ ¬ List.lt bs as := by
  intro as
  induction as with
  | nil =>
    intro bs
    cases bs with
    | nil =>
      simp only [charListLe]
      constructor
      · intro _ h
        cases h
      · intro _
        trivial
    | cons b bs =>
      simp only [charListLe]
      constructor
      · intro _ h
        cases h
      · intro _
        trivial
  | cons a as ih =>
    intro bs
    cases bs with
    | nil =>
      simp only [charListLe]
      constructor
      · intro h
        cases h
      · intro h
        exact absurd (List.lt.nil a as) h
    | cons b bs =>
      simp only [charListLe]
      by_cases hab : a < b
      · simp only [if_pos hab]
        constructor
        · intro _ h
          cases h with
          | head _ _ hba => exact absurd hab (asymm hba)
          | tail h1 h2 h3 => exact h2 hab
        · intro _
          trivial
      · rw [if_neg hab]
        by_cases heq : a = b
        · subst heq
          rw [if_pos rfl, ih bs]
          constructor
          · intro h hlt
            cases hlt with
            | head _ _ hba => exact lt_irrefl a hba
            | tail h1 h2 h3 => exact h h3
          · intro h
            exact fun hlt => h (List.lt.tail hab hab hlt)
        · simp only [if_neg heq]
          have hba : b < a := by
            rcases lt_trichotomy a b with h | h | h
            · exact absurd h hab
            · exact absurd h heq
            · exact h
          constructor
          · intro h
            cases h
          · intro h
            exact absurd (List.lt.head bs as hba) h

theorem charListLe_iff_le (a b : String) : charListLe a.data b.data = true ↔ a ≤ b := by
  have h1 : b < a ↔ List.lt b.data a.data := by
    rw [String.lt_iff_toList_lt, List.lt_iff_lex_lt]
    rfl
  rw [charListLe_iff_not_lt, ← h1, not_lt]

theorem charListLe_total (a b : String) :
    charListLe a.data b.data = true ∨ charListLe b.data a.data = true := by
  rw [charListLe_iff_le, charListLe_iff_le]
  exact le_total a b

theorem charListLe_trans {a b c : String} (h1 : charListLe a.data b.data = true)
    (h2 : charListLe b.data c.data = true) : charListLe a.data c.data = true := by
  rw [charListLe_iff_le] at h1 h2 ⊢
  exact le_trans h1 h2

/-! ### Ingestion facts -/

theorem create_sorted_txn_set_length (records : List (List String)) :
    (create_sorted_txn_set records).length = records.length := by
  simp [create_sorted_txn_set]

theorem create_sorted_txn_set_getD (records : List (List String)) (i : Nat)
    (hi : i < records.length) :
    (create_sorted_txn_set records).getD i { id := 0, items := [] } =
      { id := i, items := List.insertionSort (fun a b => charListLe a.data b.data = true)
          ((records.getD i []).filter (fun x => !x.isEmpty)) } := by
  have hlen : i < (create_sorted_txn_set records).length := by
    rw [create_sorted_txn_set_length]
    exact hi
  rw [List.getD_eq_getElem _ _ hlen]
  have he : i < records.enum.length := by
    rw [List.enum_length]
    exact hi
  rw [show (create_sorted_txn_set records)[i] =
    { id := (records.enum[i]).1, items :=
        List.insertionSort (fun a b => charListLe a.data b.data = true)
          ((records.enum[i]).2.filter (fun x => !x.isEmpty)) } from List.getElem_map _,
    List.getElem_enum, List.getD_eq_getElem records [] hi]

theorem sorted_insertionSort_charListLe (l : List String) :
    (List.insertionSort (fun a b => charListLe a.data b.data = true) l).Sorted (· ≤ ·) := by
  have hs := @List.sorted_insertionSort String (fun a b => charListLe a.data b.data = true) _
    ⟨fun a b => charListLe_total a b⟩ ⟨fun a b c => charListLe_trans⟩ l
  exact hs.imp (fun h => (charListLe_iff_le _ _).mp h)

theorem perm_insertionSort_charListLe (l : List String) :
    (List.insertionSort (fun a b => charListLe a.data b.data = true) l).Perm l :=
  List.perm_insertionSort _ l

/-! ### Degree-1 membership and candidate promotion -/

theorem final_degree1_iff (txns : List Txn) (mc : Nat) {enum : List (String × Nat)}
    (henum : enum.Perm (create_candicate_set_1 txns)) (x : String) :
    (∃ F ∈ pipelineFreSets enum txns mc, F.degree = 1 ∧ F.items = [x]) ↔
      mc < tally x txns := by
  have hseedok := seedOk_pipeline txns mc henum
  have hInv := final_inv txns mc henum
  constructor
  · rintro ⟨F, hF, hFd, hFi⟩
    have hFseed : F ∈ init_fre_set (create_frequent_set_1 enum mc) := by
      have hm : F ∈ get_degree_fre_sets (pipelineFreSets enum txns mc) 1 :=
        mem_get_degree.mpr ⟨hF, hFd⟩
      rw [hInv.level1] at hm
      exact hm
    rcases hseedok.counts F hFseed with ⟨h1, h2⟩
    rw [hFi] at h2
    simp only [List.headD_cons] at h2
    omega
  · intro h
    have hpos : 0 < tally x txns := by omega
    have hxkeys : x ∈ (create_candicate_set_1 txns).map Prod.fst := by
      rw [mem_keys_create]
      exact tally_pos_iff.mp hpos
    have hxe : (x, lookupCount (create_candicate_set_1 txns) x) ∈ create_candicate_set_1 txns :=
      (mem_iff_lookup (nodup_keys_create txns)).mpr ⟨hxkeys, rfl⟩
    rw [lookupCount_create] at hxe
    have hxenum : (x, tally x txns) ∈ enum := henum.mem_iff.mpr hxe
    have hxfl : (x, tally x txns) ∈ create_frequent_set_1 enum mc :=
      mem_create_frequent_set_1.mpr ⟨hxenum, h⟩
    have hxU : x ∈ seed_items enum mc := List.mem_map_of_mem Prod.fst hxfl
    rcases hseedok.complete1 x hxU with ⟨F, hFseed, hFi⟩
    have hFfs : F ∈ pipelineFreSets enum txns mc := by
      have hm : F ∈ get_degree_fre_sets (pipelineFreSets enum txns mc) 1 := by
        rw [hInv.level1]
        exact hFseed
      exact (mem_get_degree.mp hm).1
    exact ⟨F, hFfs, hseedok.degrees F hFseed, hFi⟩

theorem pairJoin_count_zero {d : Nat} {l : List FrequentSet} {c : CandicateSet}
    (hc : c ∈ pairJoin d l) : c.count = 0 := by
  rcases mem_pairJoin.mp hc with ⟨A, B, -, hj⟩
  rcases joinOne_some.mp hj with ⟨-, -, rfl⟩
  rfl

theorem candidate_promoted (seed : List FrequentSet) (txns : List Txn) (mc : Nat) (k : Nat)
    (hg : 0 < len_of_f_degree (genStates seed txns mc k).1 (genStates seed txns mc k).2)
    {c : CandicateSet}
    (hc : c ∈ get_candi_from_f (genStates seed txns mc k).1 (genStates seed txns mc k).2)
    (hsupp : mc ≤ suppCount c.items txns) :
    ∃ F ∈ (genStates seed txns mc (k + 1)).1, F.items = c.items ∧
      F.count = suppCount c.items txns := by
  rw [genStates_succ, levelStep, if_pos hg]
  have hc0 : c.count = 0 := pairJoin_count_zero hc
  exact ⟨{ degree := c.degree, items := c.items, count := c.count + suppCount c.items txns },
    List.mem_append_right _ (mem_promote.mpr ⟨c, hc, by omega, rfl⟩), rfl, by simp [hc0]⟩

/-! ### Shape safety without any hypothesis on the tally order -/

theorem shape_genStates (enum : List (String × Nat)) (txns : List Txn) (mc : Nat) :
    ∀ k, ∀ F ∈ (genStates (init_fre_set (create_frequent_set_1 enum mc)) txns mc k).1,
      F.items.length = F.degree ∧ 1 ≤ F.degree := by
  intro k
  induction k with
  | zero =>
    intro F hF
    rcases mem_init_fre_set.mp hF with ⟨e, he, rfl⟩
    exact ⟨rfl, le_refl 1⟩
  | succ k ih =>
    rw [genStates_succ]
    by_cases hg : 0 < len_of_f_degree
        (genStates (init_fre_set (create_frequent_set_1 enum mc)) txns mc k).1
        (genStates (init_fre_set (create_frequent_set_1 enum mc)) txns mc k).2
    · rw [levelStep, if_pos hg]
      intro F hF
      rcases List.mem_append.mp hF with hF | hF
      · exact ih F hF
      · rcases mem_promote.mp hF with ⟨c, hc, hle, rfl⟩
        rcases mem_pairJoin.mp hc with ⟨A, B, hsubl, hj⟩
        have hA : A ∈ get_degree_fre_sets
            (genStates (init_fre_set (create_frequent_set_1 enum mc)) txns mc k).1
            (genStates (init_fre_set (create_frequent_set_1 enum mc)) txns mc k).2 :=
          hsubl.subset (by simp)
        rcases mem_get_degree.mp hA with ⟨hAfs, hAd⟩
        have hAlen := (ih A hAfs).1
        rcases joinOne_some.mp hj with ⟨-, -, rfl⟩
        refine ⟨?_, ?_⟩
        · show (A.items ++ [_]).length = _ + 1
          simp [hAlen, hAd]
        · show 1 ≤ _ + 1
          omega
    · rw [levelStep, if_neg hg]
      exact ih

theorem candi_good {U : List String} {seed : List FrequentSet} {txns : List Txn} {mc : Nat}
    {fs : List FrequentSet} {d : Nat} (hInv : LoopInv U seed txns mc (fs, d)) :
    ∀ c ∈ get_candi_from_f fs d, c.degree = d + 1 ∧ c.count = 0 ∧
      c.items.length = d + 1 ∧ c.items.Pairwise (idxLt U) ∧ (∀ x ∈ c.items, x ∈ U) := by
  intro c hc
  have hd1 : 1 ≤ d := hInv.dpos
  have hgood_dfs : ∀ F ∈ get_degree_fre_sets fs d, goodSet U d F := by
    intro F hF
    rcases mem_get_degree.mp hF with ⟨hFfs, hFd⟩
    have := hInv.good F hFfs
    rwa [hFd] at this
  rcases mem_pairJoin.mp hc with ⟨A, B, hsubl, hj⟩
  have hA : A ∈ get_degree_fre_sets fs d := hsubl.subset (by simp)
  have hB : B ∈ get_degree_fre_sets fs d := hsubl.subset (by simp)
  have hAB : seqLt U A.items B.items := by
    have hp := List.Pairwise.sublist hsubl (hInv.levelSorted d)
    rcases List.pairwise_cons.mp hp with ⟨h1, -⟩
    exact h1 B (by simp)
  obtain ⟨c1, c2, -, c4, c5, c6⟩ :=
    joinOne_good hd1 (hgood_dfs A hA) (hgood_dfs B hB) hAB hj
  exact ⟨c1, c2, c4, c5, c6⟩

theorem genStates_deg_pos (seed : List FrequentSet) (txns : List Txn) (mc : Nat) :
    ∀ k, 1 ≤ (genStates seed txns mc k).2 := by
  intro k
  induction k with
  | zero => exact le_refl 1
  | succ k ih =>
    rw [genStates_succ]
    by_cases hg : 0 < len_of_f_degree (genStates seed txns mc k).1 (genStates seed txns mc k).2
    · rw [levelStep, if_pos hg]
      simp only
      omega
    · rw [levelStep, if_neg hg]
      exact ih

/-! ## Concrete example run used by the witnesses -/

/-- Two identical raw records. -/
def exRecords : List (List String) := [["a", "b"], ["a", "b"]]

/-- Their ingested transactions. -/
def exTxns : List Txn := create_sorted_txn_set exRecords

/-- The insertion-ordered tally of `exTxns` (one admissible hash-map order). -/
def exEnum : List (String × Nat) := create_candicate_set_1 exTxns

/-- The reversed tally order (another admissible hash-map order). -/
def exEnumBA : List (String × Nat) := [("b", 2), ("a", 2)]

/-! ## Claims -/

/-- C1: with `min_count = ⌊transaction_count * min_sup⌋`, a distinct item becomes a
degree-1 frequent itemset exactly when its tally is strictly greater than
`min_count`, and a candidate of degree ≥ 2 is promoted exactly when its count is
`≥ min_count`: (a) degree-1 membership in the final collection is equivalent to
`min_count < tally`; (b) every frequent set of degree ≥ 2 has
`min_count ≤ count` with `count` the support count; (c) every generated
candidate whose support count reaches `min_count` is promoted into the
collection by the level step that examined it. -/
theorem c1_threshold_policy (txns : List Txn) (min_sup : ℚ) (mc : Nat)
    (hmc : mc = min_count_of txns min_sup) {enum : List (String × Nat)}
    (henum : enum.Perm (create_candicate_set_1 txns)) :
    (∀ x : String,
      (∃ F ∈ pipelineFreSets enum txns mc, F.degree = 1 ∧ F.items = [x]) ↔
        mc < tally x txns) ∧
    (∀ F ∈ pipelineFreSets enum txns mc, 2 ≤ F.degree →
      mc ≤ F.count ∧ F.count = suppCount F.items txns) ∧
    (∀ k c,
      0 < len_of_f_degree (genStates (init_fre_set (create_frequent_set_1 enum mc)) txns mc k).1
        (genStates (init_fre_set (create_frequent_set_1 enum mc)) txns mc k).2 →
      c ∈ get_candi_from_f (genStates (init_fre_set (create_frequent_set_1 enum mc)) txns mc k).1
        (genStates (init_fre_set (create_frequent_set_1 enum mc)) txns mc k).2 →
      mc ≤ suppCount c.items txns →
      ∃ F ∈ (genStates (init_fre_set (create_frequent_set_1 enum mc)) txns mc (k + 1)).1,
        F.items = c.items ∧ F.count = suppCount c.items txns) := by
  refine ⟨final_degree1_iff txns mc henum, ?_, ?_⟩
  · intro F hF h2
    have hc := (final_inv txns mc henum).counts F hF h2
    exact ⟨hc.2, hc.1⟩
  · intro k c hg hc hsupp
    exact candidate_promoted _ txns mc k hg hc hsupp

/-- C1 witness: the run on `exRecords` with `min_sup = 1/2`. -/
theorem c1_threshold_policy_witness :
    (min_count_of exTxns (1/2) = min_count_of exTxns (1/2) ∧
      exEnum.Perm (create_candicate_set_1 exTxns)) ∧
    ((∃ F ∈ pipelineFreSets exEnum exTxns (min_count_of exTxns (1/2)),
        F.degree = 1 ∧ F.items = ["a"]) ↔
      min_count_of exTxns (1/2) < tally "a" exTxns) :=
  ⟨⟨rfl, by decide⟩, (c1_threshold_policy exTxns (1/2) _ rfl (by decide)).1 "a"⟩

/-- C2: the emitted rule collection is exactly the spec-side enumeration: one
rule per frequent itemset of degree ≥ 2 and per bitmask `1 .. 2^n - 2` whose
confidence (count ratio against the looked-up antecedent itemset) reaches
`min_conf`, with the antecedent selected by the mask bits from the low bit, the
consequent the remaining items in order, and support `count / txn_count`
(`specRules` is written from the spec's words; the code side returns `some`,
i.e. no panic). -/
theorem c2_rule_generator (txns : List Txn) (mc : Nat) (min_conf : ℚ)
    {enum : List (String × Nat)} (henum : enum.Perm (create_candicate_set_1 txns)) :
    generate_association_rules (pipelineFreSets enum txns mc) min_conf txns.length =
      some (specRules (pipelineFreSets enum txns mc) min_conf txns.length) :=
  pipeline_rules txns mc min_conf txns.length henum

/-- C2 witness: the run on `exRecords` with `min_count 1`, `min_conf = 1`. -/
theorem c2_rule_generator_witness :
    generate_association_rules (pipelineFreSets exEnum exTxns 1) 1 exTxns.length =
      some (specRules (pipelineFreSets exEnum exTxns 1) 1 exTxns.length) :=
  c2_rule_generator exTxns 1 1 (by decide)

/-- C3: anti-monotonicity of the final collection: every `(k-1)`-element
subset (canonically ordered, i.e. sublist) of the items of a frequent itemset
of degree `k ≥ 2` is the item sequence of some frequent itemset of degree
`k - 1` in the collection. -/
theorem c3_anti_monotonicity (txns : List Txn) (mc : Nat) {enum : List (String × Nat)}
    (henum : enum.Perm (create_candicate_set_1 txns)) :
    ∀ F ∈ pipelineFreSets enum txns mc, 2 ≤ F.degree →
      ∀ S : List String, S.Sublist F.items → S.length = F.degree - 1 →
        ∃ G ∈ pipelineFreSets enum txns mc, G.degree = F.degree - 1 ∧ G.items = S := by
  intro F hF h2 S hsub hlen
  have hseedok := seedOk_pipeline txns mc henum
  have hInv := final_inv txns mc henum
  have hgood := hInv.good F hF
  have hdeg_le : F.degree ≤ (finalState enum txns mc).2 := hInv.degree_le F hF
  have hcounts := hInv.counts F hF h2
  have hmono := suppCount_mono (fun x hx => hsub.subset hx) txns
  obtain ⟨G, hG, hGd, hGi⟩ :=
    inv_find hseedok hInv S (by omega) (by omega)
      (List.Pairwise.sublist hsub hgood.2.1)
      (fun x hx => hgood.2.2 x (hsub.subset hx)) (by omega)
  exact ⟨G, hG, by omega, hGi⟩

/-- C3 witness: in the `exRecords` run, `["a"]` is a 1-subset of the frequent
2-itemset `["a","b"]` and is present at degree 1. -/
theorem c3_anti_monotonicity_witness :
    ({ degree := 2, items := ["a", "b"], count := 2 } : FrequentSet) ∈
        pipelineFreSets exEnum exTxns 1 ∧
    (∃ G ∈ pipelineFreSets exEnum exTxns 1,
      G.degree = ({ degree := 2, items := ["a", "b"], count := 2 } : FrequentSet).degree - 1 ∧
      G.items = ["a"]) :=
  ⟨by decide,
    c3_anti_monotonicity exTxns 1 (by decide) _ (by decide) (by decide) ["a"]
      (List.Sublist.cons₂ "a" (List.sublist_cons_self "b" [])) (by decide)⟩

/-- C4: the antecedent lookup always succeeds: on every run the rule generator
returns a value (the modelled `unwrap` panic branch, `none`, is never taken). -/
theorem c4_lookup_success (txns : List Txn) (mc : Nat) (min_conf : ℚ)
    {enum : List (String × Nat)} (henum : enum.Perm (create_candicate_set_1 txns)) :
    ∃ rules, generate_association_rules (pipelineFreSets enum txns mc) min_conf
      txns.length = some rules :=
  ⟨_, pipeline_rules txns mc min_conf txns.length henum⟩

/-- C4 witness: the run on `exRecords`. -/
theorem c4_lookup_success_witness :
    ∃ rules, generate_association_rules (pipelineFreSets exEnum exTxns 1) 1
      exTxns.length = some rules :=
  c4_lookup_success exTxns 1 1 (by decide)

/-- C5: candidate generation is exactly the join rule: the candidate list
equals the enumeration over index pairs `(i, j)` with `i < j` in iteration
order (`candSpec`), and a pair joins into `some` candidate precisely when the
first `k - 1` items agree and the `k`-th items differ, the candidate being
`i`'s items followed by `j`'s last item with count 0 (for `k = 1` the compared
prefixes `take 0` are both empty, so every pair passes the prefix test). -/
theorem c5_candidate_join :
    (∀ (fre_sets : List FrequentSet) (degree : Nat),
      get_candi_from_f fre_sets degree = candSpec fre_sets degree) ∧
    (∀ (degree : Nat) (fi fj : FrequentSet) (c : CandicateSet),
      joinOne degree fi fj = some c ↔
        fi.items.take (degree - 1) = fj.items.take (degree - 1) ∧
        fi.items.getD (degree - 1) "" ≠ fj.items.getD (degree - 1) "" ∧
        c = { degree := degree + 1,
              items := fi.items ++ [fj.items.getD (degree - 1) ""], count := 0 }) :=
  ⟨get_candi_eq_candSpec, fun _ _ _ _ => joinOne_some⟩

/-- C6 counterexample: the claim's "items sorted lexicographically" fails on a
reachable run.  With the admissible hash-map iteration order `exEnumBA` (a
permutation of the tally of `exTxns`, which ingestion produced from
`exRecords`), the pipeline promotes a frequent itemset with item sequence
`["b", "a"]`, which is not sorted by `≤`. -/
theorem c6_counterexample :
    exEnumBA.Perm (create_candicate_set_1 exTxns) ∧
    exTxns = create_sorted_txn_set exRecords ∧
    1 = min_count_of exTxns (1/2) ∧
    ∃ F ∈ pipelineFreSets exEnumBA exTxns 1, ¬ F.items.Sorted (· ≤ ·) := by
  refine ⟨by decide, rfl, ?_, ⟨{ degree := 2, items := ["b", "a"], count := 2 }, by decide, ?_⟩⟩
  · have hlen : exTxns.length = 2 := rfl
    rw [min_count_of, hlen]
    norm_num
  · intro h
    have h2 : ("b" : String) ≤ "a" := (List.pairwise_cons.mp h).1 "a" (by simp)
    rw [← charListLe_iff_le] at h2
    simp [charListLe] at h2

/-- C6 (amended): every `ItemSet` created by the pipeline — every frequent
itemset in the collection and every candidate produced by the generator —
satisfies `degree = length(items)` and has pairwise-distinct items, and its
items are strictly sorted by the single total order fixed by the run's
degree-1 enumeration order (`seed_items`); that order need not be the
lexicographic order on strings (see the counterexample). -/
theorem c6_canonical_form (txns : List Txn) (mc : Nat) {enum : List (String × Nat)}
    (henum : enum.Perm (create_candicate_set_1 txns)) :
    (∀ F ∈ pipelineFreSets enum txns mc, F.items.length = F.degree ∧ F.items.Nodup ∧
      F.items.Pairwise (idxLt (seed_items enum mc))) ∧
    (∀ k c,
      c ∈ get_candi_from_f (genStates (init_fre_set (create_frequent_set_1 enum mc)) txns mc k).1
        (genStates (init_fre_set (create_frequent_set_1 enum mc)) txns mc k).2 →
      c.items.length = c.degree ∧ c.items.Nodup ∧
        c.items.Pairwise (idxLt (seed_items enum mc))) := by
  constructor
  · intro F hF
    have hg := (final_inv txns mc henum).good F hF
    exact ⟨hg.1, nodup_of_pairwise_idxLt hg.2.1, hg.2.1⟩
  · intro k c hc
    have hInv := loopInv_genStates (seedOk_pipeline txns mc henum) k
    have hstate : genStates (init_fre_set (create_frequent_set_1 enum mc)) txns mc k =
        ((genStates (init_fre_set (create_frequent_set_1 enum mc)) txns mc k).1,
         (genStates (init_fre_set (create_frequent_set_1 enum mc)) txns mc k).2) := rfl
    rw [hstate] at hInv
    obtain ⟨c1, -, c3, c4, -⟩ := candi_good hInv c hc
    exact ⟨by rw [c3, c1], nodup_of_pairwise_idxLt c4, c4⟩

/-- C6 witness (amended claim): the `exRecords` run. -/
theorem c6_canonical_form_witness :
    exEnum.Perm (create_candicate_set_1 exTxns) ∧
    (∀ F ∈ pipelineFreSets exEnum exTxns 1, F.items.length = F.degree ∧ F.items.Nodup ∧
      F.items.Pairwise (idxLt (seed_items exEnum 1))) :=
  ⟨by decide, (c6_canonical_form exTxns 1 (by decide)).1⟩

/-- C7 counterexample: ingestion does not deduplicate.  The record
`["a", "a"]` yields a transaction whose item list `["a", "a"]` has a
duplicate. -/
theorem c7_counterexample :
    ¬ (∀ t ∈ create_sorted_txn_set [["a", "a"]], t.items.Nodup) := by
  decide

/-- C7 (amended): for every input record, the produced `Txn` keeps the
record's position as id, has all blank entries removed, and has its items
sorted in the single global lexicographic order `≤` on strings; the items are a
permutation of the record's non-blank entries — in particular duplicates are
NOT removed (ingestion performs no deduplication, see the counterexample). -/
theorem c7_ingestion (records : List (List String)) :
    (create_sorted_txn_set records).length = records.length ∧
    ∀ i, i < records.length →
      ((create_sorted_txn_set records).getD i { id := 0, items := [] }).id = i ∧
      ((create_sorted_txn_set records).getD i { id := 0, items := [] }).items.Sorted (· ≤ ·) ∧
      (∀ x ∈ ((create_sorted_txn_set records).getD i { id := 0, items := [] }).items,
        x ≠ "") ∧
      ((create_sorted_txn_set records).getD i { id := 0, items := [] }).items.Perm
        ((records.getD i []).filter (fun x => !x.isEmpty)) := by
  refine ⟨create_sorted_txn_set_length records, ?_⟩
  intro i hi
  rw [create_sorted_txn_set_getD records i hi]
  refine ⟨rfl, sorted_insertionSort_charListLe _, ?_, perm_insertionSort_charListLe _⟩
  intro x hx
  have hmem : x ∈ (records.getD i []).filter (fun x => !x.isEmpty) :=
    (perm_insertionSort_charListLe _).subset hx
  rw [List.mem_filter] at hmem
  intro he
  rw [← String.isEmpty_iff] at he
  rw [he] at hmem
  simp at hmem

/-- C7 witness (amended claim): the first record of `exRecords`. -/
theorem c7_ingestion_witness :
    (0 < exRecords.length) ∧
    ((create_sorted_txn_set exRecords).getD 0 { id := 0, items := [] }).items.Sorted
      (· ≤ ·) :=
  ⟨by decide, ((c7_ingestion exRecords).2 0 (by decide)).2.1⟩

/-- C8: for every transaction set and `min_sup` (`min_count = ⌊n * min_sup⌋`),
the level loop terminates: the state is constant from `seed.length + 1`
iterations on, and the loop stops exactly at the first level with no frequent
itemsets — the final current degree `dF` has zero sets, every degree strictly
between 1 and `dF` is populated, and every degree from `dF` on is empty. -/
theorem c8_termination (txns : List Txn) (min_sup : ℚ) (mc : Nat)
    (hmc : mc = min_count_of txns min_sup) {enum : List (String × Nat)}
    (henum : enum.Perm (create_candicate_set_1 txns)) :
    (∀ n, (init_fre_set (create_frequent_set_1 enum mc)).length + 1 ≤ n →
      genStates (init_fre_set (create_frequent_set_1 enum mc)) txns mc n =
        genStates (init_fre_set (create_frequent_set_1 enum mc)) txns mc
          ((init_fre_set (create_frequent_set_1 enum mc)).length + 1)) ∧
    len_of_f_degree (finalState enum txns mc).1 (finalState enum txns mc).2 = 0 ∧
    (∀ m, 1 ≤ m → m < (finalState enum txns mc).2 →
      0 < len_of_f_degree (finalState enum txns mc).1 m) ∧
    (∀ m, (finalState enum txns mc).2 ≤ m →
      len_of_f_degree (finalState enum txns mc).1 m = 0) := by
  have hfix : len_of_f_degree (finalState enum txns mc).1 (finalState enum txns mc).2 = 0 :=
    (levelStep_fix_iff txns mc _).mp (pipeline_fix txns mc henum)
  refine ⟨pipeline_stable txns mc henum, hfix, ?_, ?_⟩
  · exact fun m h1 h2 => (final_inv txns mc henum).below_pos m h1 h2
  · intro m hm
    rcases Nat.eq_or_lt_of_le hm with heq | hlt
    · rw [← heq]
      exact hfix
    · rw [len_of_f_degree_eq, get_degree_eq_nil, List.length_nil]
      intro F hF
      have hd := (final_inv txns mc henum).degree_le F hF
      simp only at hd
      omega

/-- C8 witness: the run on `exRecords` with `min_sup = 1/2` is stable at the
fuel bound. -/
theorem c8_termination_witness :
    exEnum.Perm (create_candicate_set_1 exTxns) ∧
    genStates (init_fre_set (create_frequent_set_1 exEnum (min_count_of exTxns (1/2))))
        exTxns (min_count_of exTxns (1/2))
        ((init_fre_set (create_frequent_set_1 exEnum
          (min_count_of exTxns (1/2)))).length + 1) =
      genStates (init_fre_set (create_frequent_set_1 exEnum (min_count_of exTxns (1/2))))
        exTxns (min_count_of exTxns (1/2))
        ((init_fre_set (create_frequent_set_1 exEnum
          (min_count_of exTxns (1/2)))).length + 1) :=
  ⟨by decide, (c8_termination exTxns (1/2) _ rfl (by decide)).1 _ (le_refl _)⟩

/-- C9: every emitted rule satisfies `0 ≤ conf ≤ 1` and `conf ≥ min_conf`
(for `min_conf > 0`, as the spec requires `min_conf ∈ (0,1]`); moreover the
confidence is the count ratio of the source itemset against the looked-up
antecedent itemset, whose count is never smaller than the source count and is
never zero for an emitted rule. -/
theorem c9_confidence_bounds (txns : List Txn) (mc : Nat) (min_conf : ℚ)
    (hpos : 0 < min_conf) {enum : List (String × Nat)}
    (henum : enum.Perm (create_candicate_set_1 txns)) :
    ∀ rules, generate_association_rules (pipelineFreSets enum txns mc) min_conf
        txns.length = some rules →
      ∀ r ∈ rules, 0 ≤ r.conf ∧ r.conf ≤ 1 ∧ min_conf ≤ r.conf ∧
        ∃ F ∈ pipelineFreSets enum txns mc, ∃ G ∈ pipelineFreSets enum txns mc,
          r.conf = (F.count : ℚ) / (G.count : ℚ) ∧ F.count ≤ G.count ∧ 0 < G.count := by
  intro rules hrules r hr
  rw [pipeline_rules txns mc min_conf txns.length henum, Option.some_inj] at hrules
  subst hrules
  rw [specRules] at hr
  rcases List.mem_flatMap.mp hr with ⟨F, hFf, hrF⟩
  rcases List.mem_filter.mp hFf with ⟨hFmem, hFdeg⟩
  have h2 : 2 ≤ F.degree := of_decide_eq_true hFdeg
  rcases List.mem_filterMap.mp hrF with ⟨i, hi, hspec⟩
  have hInv := final_inv txns mc henum
  cases hfind : (pipelineFreSets enum txns mc).find?
      (fun x => decide (x.items = specSelect i F.items)) with
  | none =>
    rw [specRuleOfMask, hfind] at hspec
    exact absurd hspec (by simp)
  | some fa =>
    rw [specRuleOfMask, hfind] at hspec
    dsimp only at hspec
    by_cases hc : min_conf ≤ (F.count : ℚ) / (fa.count : ℚ)
    · rw [if_pos hc, Option.some_inj] at hspec
      subst hspec
      have hfam : fa ∈ pipelineFreSets enum txns mc := List.mem_of_find?_eq_some hfind
      have hfp := List.find?_some hfind
      have hfai : fa.items = specSelect i F.items := of_decide_eq_true hfp
      rcases hInv.counts F hFmem h2 with ⟨hFc1, hFc2⟩
      have hsubl : (specSelect i F.items).Sublist F.items := specSelect_sublist i F.items
      have hle : F.count ≤ fa.count := by
        by_cases hfa1 : fa.degree = 1
        · have hfaseed : fa ∈ init_fre_set (create_frequent_set_1 enum mc) := by
            have hm : fa ∈ get_degree_fre_sets (pipelineFreSets enum txns mc) 1 :=
              mem_get_degree.mpr ⟨hfam, hfa1⟩
            rw [hInv.level1] at hm
            exact hm
          rcases (seedOk_pipeline txns mc henum).mem_items fa hfaseed with ⟨x, hxU, hfax⟩
          have htal := ((seedOk_pipeline txns mc henum).counts fa hfaseed).2
          rw [hfax] at htal
          simp only [List.headD_cons] at htal
          have h1x : suppCount [x] txns ≤ tally x txns := suppCount_singleton_le_tally x txns
          have h2x : suppCount F.items txns ≤ suppCount [x] txns := by
            apply suppCount_mono
            intro y hy
            simp only [List.mem_singleton] at hy
            rw [hy]
            have hxmem : x ∈ specSelect i F.items := by
              rw [← hfai, hfax]
              simp
            exact hsubl.subset hxmem
          omega
        · have hfa2 : 2 ≤ fa.degree := by
            have := hInv.degree_pos fa hfam
            omega
          rcases hInv.counts fa hfam hfa2 with ⟨hfac1, -⟩
          have h2x : suppCount F.items txns ≤ suppCount fa.items txns := by
            apply suppCount_mono
            intro y hy
            rw [hfai] at hy
            exact hsubl.subset hy
          omega
      have hGpos : 0 < fa.count := by
        by_contra hznot
        push_neg at hznot
        have hz0 : fa.count = 0 := by omega
        rw [hz0] at hc
        simp only [Nat.cast_zero, div_zero] at hc
        exact absurd hc (not_le.mpr hpos)
      refine ⟨?_, ?_, hc, F, hFmem, fa, hfam, rfl, hle, hGpos⟩
      · exact div_nonneg (Nat.cast_nonneg _) (Nat.cast_nonneg _)
      · rw [div_le_one (by exact_mod_cast hGpos)]
        exact_mod_cast hle
    · rw [if_neg hc] at hspec
      exact absurd hspec (by simp)

/-- C9 witness: the run on `exRecords` with `min_conf = 1`. -/
theorem c9_confidence_bounds_witness :
    ((0:ℚ) < 1 ∧ exEnum.Perm (create_candicate_set_1 exTxns)) ∧
    (∀ r ∈ specRules (pipelineFreSets exEnum exTxns 1) 1 exTxns.length,
      0 ≤ r.conf ∧ r.conf ≤ 1 ∧ (1:ℚ) ≤ r.conf ∧
        ∃ F ∈ pipelineFreSets exEnum exTxns 1, ∃ G ∈ pipelineFreSets exEnum exTxns 1,
          r.conf = (F.count : ℚ) / (G.count : ℚ) ∧ F.count ≤ G.count ∧ 0 < G.count) :=
  ⟨⟨one_pos, by decide⟩,
    c9_confidence_bounds exTxns 1 1 one_pos (by decide) _
      (pipeline_rules exTxns 1 1 exTxns.length (by decide))⟩

/-- C10: whenever the level loop body runs (the guard `len_of_f > 0` holds, so
`get_candi_from_f` is called with the current degree `d`), the degree-`d`
slice of the collection is nonempty (so `len - 1` does not underflow), `d ≥ 1`,
and every degree-`d` frequent set has exactly `d` (hence at least `d`) items,
so the prefix slice `[0 .. d-1]` and the `get(d-1)` access are in bounds. -/
theorem c10_index_safety (enum : List (String × Nat)) (txns : List Txn) (mc : Nat) :
    ∀ k, 0 < len_of_f_degree
        (genStates (init_fre_set (create_frequent_set_1 enum mc)) txns mc k).1
        (genStates (init_fre_set (create_frequent_set_1 enum mc)) txns mc k).2 →
      get_degree_fre_sets (genStates (init_fre_set (create_frequent_set_1 enum mc)) txns mc k).1
        (genStates (init_fre_set (create_frequent_set_1 enum mc)) txns mc k).2 ≠ [] ∧
      1 ≤ (genStates (init_fre_set (create_frequent_set_1 enum mc)) txns mc k).2 ∧
      ∀ F ∈ get_degree_fre_sets
          (genStates (init_fre_set (create_frequent_set_1 enum mc)) txns mc k).1
          (genStates (init_fre_set (create_frequent_set_1 enum mc)) txns mc k).2,
        F.items.length = (genStates (init_fre_set (create_frequent_set_1 enum mc)) txns mc k).2 ∧
        1 ≤ F.items.length := by
  intro k hg
  refine ⟨?_, genStates_deg_pos _ txns mc k, ?_⟩
  · intro he
    rw [len_of_f_degree_eq, he] at hg
    simp at hg
  · intro F hF
    rcases mem_get_degree.mp hF with ⟨hFfs, hFd⟩
    have hs := shape_genStates enum txns mc k F hFfs
    constructor
    · rw [← hFd]
      exact hs.1
    · have := hs.1
      have := hs.2
      omega

/-- C10 witness: the first loop iteration of the `exRecords` run. -/
theorem c10_index_safety_witness :
    0 < len_of_f_degree
        (genStates (init_fre_set (create_frequent_set_1 exEnum 1)) exTxns 1 0).1
        (genStates (init_fre_set (create_frequent_set_1 exEnum 1)) exTxns 1 0).2 ∧
    (get_degree_fre_sets (genStates (init_fre_set (create_frequent_set_1 exEnum 1)) exTxns 1 0).1
        (genStates (init_fre_set (create_frequent_set_1 exEnum 1)) exTxns 1 0).2 ≠ [] ∧
      1 ≤ (genStates (init_fre_set (create_frequent_set_1 exEnum 1)) exTxns 1 0).2 ∧
      ∀ F ∈ get_degree_fre_sets
          (genStates (init_fre_set (create_frequent_set_1 exEnum 1)) exTxns 1 0).1
          (genStates (init_fre_set (create_frequent_set_1 exEnum 1)) exTxns 1 0).2,
        F.items.length = (genStates (init_fre_set (create_frequent_set_1 exEnum 1)) exTxns 1 0).2 ∧
        1 ≤ F.items.length) :=
  ⟨by decide, c10_index_safety exEnum exTxns 1 0 (by decide)⟩
